import Mathlib

/-!
Verification of the workflow execution engine of `ramjam`
(`pkg/runner/runner.go`), a YAML-defined API test runner.

The Go code is shallowly embedded:
* parsed JSON / YAML values (`interface\x7b\x7d` after `json.Unmarshal` /
  `yaml.Unmarshal`) become the inductive type `JSON`; a Go JSON number
  (`float64`) is carried together with its Go `%v` rendering (the string
  `fmt.Sprint` produces for it), because the runner only ever observes
  numbers through `fmt.Sprint`;
* Go strings become Lean `String` / `List Char` (byte-wise comparison on
  Go strings coincides with code-point-wise comparison here, since UTF-8
  preserves code-point order);
* fallible Go functions returning `(T, error)` become `Except String T`
  or `Option String` (`none` = no error), with error messages mirroring
  the `fmt.Errorf` format strings (Go `%q` is modelled as plain
  double-quoting; none of the inputs below need escape sequences);
* the two anchored regular expressions of `evalJSONPath` are embedded as
  direct parsers with the same leftmost / greedy submatch semantics;
* general recursion (`evalJSONPath`, `applyVars` scanning) uses an
  explicit fuel argument larger than the input length; every recursive
  call strictly decreases the input length, so the fuel never runs out
  (the sufficiency lemmas below make the wrappers exact).
-/

/-- Parsed JSON (and YAML scalar) values as seen by the runner: the Go
`interface\x7b\x7d` produced by `json.Unmarshal`. `null` is the Go `nil`
interface value, `num s` is a number carried as its Go `%v` rendering,
`obj` is a `map[string]interface\x7b\x7d` (keys unique in Go; lookup
takes the first binding here). -/
inductive JSON where
  | null
  | bool (b : Bool)
  | num (s : String)
  | str (s : String)
  | arr (xs : List JSON)
  | obj (kvs : List (String × JSON))

/-- Go `mp[field]` on a `map[string]interface\x7b\x7d`: the bound value,
or the `nil` interface when the key is absent. -/
def mapGet (kvs : List (String × JSON)) (k : String) : JSON :=
  match kvs.lookup k with
  | some v => v
  | none => JSON.null

/-- Go byte-wise string `<=` (the order used by `sort.Strings`),
computed on the character lists. -/
def goStrLe : List Char → List Char → Bool
  | [], _ => true
  | _ :: _, [] => false
  | x :: xs, y :: ys => if x = y then goStrLe xs ys else decide (x < y)

/-- Key order used when Go `fmt` prints a map (`fmt` sorts the keys). -/
def pairLe (a b : String × String) : Prop := goStrLe a.1.data b.1.data = true

instance : DecidableRel pairLe := fun a b =>
  inferInstanceAs (Decidable (goStrLe a.1.data b.1.data = true))

mutual
/-- Go `fmt.Sprint` on an `interface\x7b\x7d` holding parsed JSON:
`nil` prints `<nil>`, booleans print `true`/`false`, numbers print their
`%v` rendering (stored in the `num` constructor), strings print verbatim,
slices print `[v1 v2]`, maps print `map[k1:v1 k2:v2]` with keys sorted. -/
def goSprint : JSON → String
  | .null => "<nil>"
  | .bool true => "true"
  | .bool false => "false"
  | .num s => s
  | .str s => s
  | .arr xs => "[" ++ String.intercalate " " (goSprintArr xs) ++ "]"
  | .obj kvs =>
      "map[" ++ String.intercalate " "
        ((List.insertionSort pairLe (goSprintObj kvs)).map
          (fun p => p.1 ++ ":" ++ p.2)) ++ "]"
def goSprintArr : List JSON → List String
  | [] => []
  | x :: t => goSprint x :: goSprintArr t
def goSprintObj : List (String × JSON) → List (String × String)
  | [] => []
  | (k, v) :: t => (k, goSprint v) :: goSprintObj t
end

/-- Variable store: Go `map[string]string`, `vars` in `runner.go`
(`runFile` seeds it with `base_url`). Keys are unique in Go; lookup takes
the first binding here. -/
def Vars : Type := List (String × String)

/-- Store lookup `vars[key]`, plus the comma-ok flag. -/
def lookupVar (vars : Vars) (k : String) : Option String :=
  List.lookup k (vars : List (String × String))

/-- Scanner step for the regex `\$\\x7b([^\x7d]+)\\x7d` of
`runner.go:453`: given the text after an opening `$\x7b`, split it at the
first closing brace, requiring a nonempty interior (the `+` in the
pattern). Returns `(interior, text after the brace)`. -/
def spanToBrace (l : List Char) : Option (List Char × List Char) :=
  match l.dropWhile (fun c => c ≠ '\x7d') with
  | _ :: after =>
      if l.takeWhile (fun c => c ≠ '\x7d') = [] then none
      else some (l.takeWhile (fun c => c ≠ '\x7d'), after)
  | [] => none

/-- Core of `applyVars` (`runner.go:455`):
`varPattern.ReplaceAllStringFunc` scans left to right for `$\x7b...\x7d`
occurrences with nonempty brace-free interior; a known identifier is
replaced by its store value, an unknown one is left verbatim, and
scanning resumes after the occurrence. `fuel` strictly exceeds the text
length (see `applyVarsF_irrel`), so the `0` branch is unreachable. -/
def applyVarsF (vars : Vars) : Nat → List Char → List Char
  | 0, l => l
  | fuel + 1, l =>
    match l with
    | [] => []
    | c :: t =>
      if c = '$' ∧ t.head? = some '\x7b' then
        match spanToBrace t.tail with
        | some (interior, after) =>
            (match lookupVar vars (String.mk interior) with
             | some v => v.data
             | none => '$' :: '\x7b' :: (interior ++ ['\x7d'])) ++
            applyVarsF vars fuel after
        | none => c :: applyVarsF vars fuel t
      else c :: applyVarsF vars fuel t

/-- The function `applyVars` of `runner.go:455`. -/
def applyVars (input : String) (vars : Vars) : String :=
  String.mk (applyVarsF vars (input.data.length + 1) input.data)

/-- Whether a string contains an occurrence of the pattern
`\$\\x7b([^\x7d]+)\\x7d` (a placeholder). Mirrors the scan of
`applyVarsF`. -/
def hasPlaceholder : List Char → Bool
  | [] => false
  | c :: t =>
    if c = '$' ∧ t.head? = some '\x7b' ∧ (spanToBrace t.tail).isSome then true
    else hasPlaceholder t

mutual
/-- The function `applyVarsToInterface` of `runner.go:465`: substitute
into strings, recurse into slices and map values (keys untouched), leave
every other kind unchanged. -/
def applyVarsToInterface (val : JSON) (vars : Vars) : JSON :=
  match val with
  | .str s => .str (applyVars s vars)
  | .arr xs => .arr (applyVarsToArr xs vars)
  | .obj kvs => .obj (applyVarsToObj kvs vars)
  | other => other
def applyVarsToArr : List JSON → Vars → List JSON
  | [], _ => []
  | x :: t, vars => applyVarsToInterface x vars :: applyVarsToArr t vars
def applyVarsToObj : List (String × JSON) → Vars → List (String × JSON)
  | [], _ => []
  | (k, v) :: t, vars => (k, applyVarsToInterface v vars) :: applyVarsToObj t vars
end

example : applyVars "hello" [] = "hello" := rfl
example : applyVars "a$\x7bx\x7db" [("x", "1")] = "a1b" := rfl
example : applyVars "a$\x7bx\x7db" [] = "a$\x7bx\x7db" := rfl
example : goSprint (.obj [("b", .num "2"), ("a", .str "x")]) = "map[a:x b:2]" := rfl

/-- Go `unicode.IsSpace` restricted to the Latin-1 range, used by
`strings.TrimSpace` (`runner.go:485`). -/
def isGoSpace (c : Char) : Bool :=
  c == ' ' || c == '\t' || c == '\n' || c == '\x0b' || c == '\x0c' ||
  c == '\r' || c == '\x85' || c == '\xa0'

/-- Go `strings.TrimSpace`. -/
def goTrimSpace (l : List Char) : List Char :=
  ((l.dropWhile isGoSpace).reverse.dropWhile isGoSpace).reverse

/-- Literal-by-literal matcher: remove the given literal head from the
list, or fail. -/
def stripLit : List Char → List Char → Option (List Char)
  | [], l => some l
  | p :: ps, l =>
    match l with
    | [] => none
    | c :: cs => if c = p then stripLit ps cs else none

/-- Character class `[A-Za-z0-9_\-]` of the filter regex
(`runner.go:491`). -/
def wordChar (c : Char) : Bool := c.isAlphanum || c == '_' || c == '-'

/-- Character class `['"]` of the filter regex. -/
def quoteChar (c : Char) : Bool := c == '\x27' || c == '\x22'

/-- Literal head `$[?(@.` of the filter regex `runner.go:491`. -/
def filterQueryHead : List Char := ['$', '[', '?', '(', '@', '.']

/-- Match `^\$\[\?\(@\.([A-Za-z0-9_\-]+)==` of the filter regex:
the literal head, then the greedy word-character run (group 1, the
field), then the literal `==`. Returns the field and the text after
`==`. The run is maximal, so no backtracking can arise (`=` is not a
word character). -/
def parseFilterHead (p : List Char) : Option (List Char × List Char) :=
  match stripLit filterQueryHead p with
  | none => none
  | some s =>
    if s.takeWhile wordChar ≠ [] ∧ (s.dropWhile wordChar).take 2 = ['=', '='] then
      some (s.takeWhile wordChar, (s.dropWhile wordChar).drop 2)
    else none

/-- Tail `(?:\.(.*))?$` shared by both regexes of `evalJSONPath`: the
text after `)]` (or `]`) must be empty, or a dot followed by group 3,
which `.*` forbids to contain a newline. -/
def validSuffix : List Char → Option (List Char)
  | [] => some []
  | c :: t => if c = '.' ∧ t.contains '\n' = false then some t else none

/-- All decompositions `s = before ++ ")]" ++ after`, in left-to-right
order of the `)]` occurrence. -/
def splits2 : List Char → List (List Char × List Char)
  | [] => []
  | c :: t =>
    (if c = ')' ∧ t.head? = some ']' then [([], t.tail)] else []) ++
    (splits2 t).map (fun b => (c :: b.1, b.2))

/-- The optional trailing quote `['"]?` before `)]`: dropped when it is
the last character of the candidate text. -/
def trimTrailQuote (b : List Char) : List Char :=
  match b.getLast? with
  | some c => if quoteChar c then b.dropLast else b
  | none => b

/-- Match `([^'"]+)['"]?` against the text before a candidate `)]`:
group 2 is the text minus an optional single trailing quote, and must be
nonempty and quote-free. -/
def groupOk (b : List Char) : Option (List Char) :=
  if trimTrailQuote b ≠ [] ∧ (trimTrailQuote b).all (fun c => !quoteChar c) then
    some (trimTrailQuote b)
  else none

/-- The optional leading quote `['"]?` after `==`: consumed when
present (the greedy preference; not consuming it can never match, since
group 2 excludes quotes). -/
def stripLeadQuote (s : List Char) : List Char :=
  match s with
  | c :: t => if quoteChar c then t else s
  | [] => s

/-- Whether the two-character sequence `)]` occurs in the list. -/
def hasRJ : List Char → Bool
  | [] => false
  | c :: t => if c = ')' ∧ t.head? = some ']' then true else hasRJ t

/-- Match `['"]?([^'"]+)['"]?\)\](?:\.(.*))?$` (the filter regex after
`==`) with the leftmost-first greedy semantics of Go's `regexp`: an
optional leading quote is consumed if present, and group 2 extends to
the rightmost `)]` whose preceding text and following suffix are
admissible. Returns (group 2, group 3). -/
def pickFilter (s : List Char) : Option (List Char × List Char) :=
  (((splits2 (stripLeadQuote s)).reverse).filterMap (fun bs =>
      match groupOk bs.1, validSuffix bs.2 with
      | some g2, some g3 => some (g2, g3)
      | _, _ => none)).head?

/-- The anchored filter regex
`^\$\[\?\(@\.([A-Za-z0-9_\-]+)==['"]?([^'"]+)['"]?\)\](?:\.(.*))?$` of
`runner.go:491`, as a parser returning (field, value, rest);
`rest = []` both for an absent trailing group and for a lone `.`. -/
def parseFilter (p : List Char) : Option (List Char × List Char × List Char) :=
  match parseFilterHead p with
  | none => none
  | some (field, s) =>
    match pickFilter s with
    | none => none
    | some (v, r) => some (field, v, r)

/-- Decimal value of a digit run. -/
def natOfDigits (l : List Char) : Nat :=
  l.foldl (fun n c => n * 10 + (c.toNat - '0'.toNat)) 0

/-- The anchored index regex `^\$\[([0-9]+)\](?:\.(.*))?$` of
`runner.go:516`, as a parser returning (digit run, rest). The digit run
is maximal and `]` is not a digit, so no backtracking can arise.
Go's `strconv.Atoi` range clamping is not modelled: a digit run
exceeding `int64` clamps to `MaxInt64` in Go, which is out of bounds
for every Go slice, exactly as the unclamped value is here. -/
def parseIndex (p : List Char) : Option (List Char × List Char) :=
  match stripLit ['$', '['] p with
  | none => none
  | some s =>
    if s.takeWhile Char.isDigit ≠ [] ∧ (s.dropWhile Char.isDigit).head? = some ']' then
      match validSuffix (s.dropWhile Char.isDigit).tail with
      | some r => some (s.takeWhile Char.isDigit, r)
      | none => none
    else none

/-- The double prefix trim of `runner.go:533`:
`strings.TrimPrefix(strings.TrimPrefix(p, "$."), "$")`. -/
def stripDollar (p : List Char) : List Char :=
  let q := if p.head? = some '$' ∧ p.tail.head? = some '.' then p.tail.tail else p
  if q.head? = some '$' then q.tail else q

/-- Go `strings.Split(p, ".")` on character lists. -/
def splitOnDot : List Char → List (List Char)
  | [] => [[]]
  | c :: t =>
    if c = '.' then [] :: splitOnDot t
    else
      match splitOnDot t with
      | s :: ss => (c :: s) :: ss
      | [] => [[c]]

/-- Digit-run value, or `none` when the run is empty or contains a
non-digit. -/
def digitsVal (l : List Char) : Option Nat :=
  if l ≠ [] ∧ l.all Char.isDigit then some (natOfDigits l) else none

/-- Go `strconv.Atoi` syntax: an optional sign followed by at least one
digit (range clamping not modelled, see `parseIndex`). -/
def goAtoi (l : List Char) : Option Int :=
  match l with
  | '+' :: ds => (digitsVal ds).map (fun n => (n : Int))
  | '-' :: ds => (digitsVal ds).map (fun n => -(n : Int))
  | ds => (digitsVal ds).map (fun n => (n : Int))

/-- One iteration of the segment loop of `evalJSONPath`
(`runner.go:536`): an empty segment is skipped; a segment carrying
`[N]` with a trailing `]` splits into a name and an index (`Atoi`
failure is the `invalid index` error; an empty `[]` or a negative index
leaves the index unused, as the Go `idx` stays `-1` or fails
`idx >= 0`); a nonempty name requires an object (absent fields yield
the `nil` interface); an index requires an array and an in-range
position. -/
def evalSeg (cur : JSON) (seg : List Char) : Except String JSON :=
  if seg = [] then .ok cur
  else
    let nameIdx : Option (List Char × Option Int) :=
      if seg.contains '[' ∧ seg.getLast? = some ']' then
        let name := seg.takeWhile (fun c => c ≠ '[')
        let after := (seg.dropWhile (fun c => c ≠ '[')).tail
        let idStr := after.dropLast
        if idStr = [] then some (name, none)
        else match goAtoi idStr with
             | some n => some (name, some n)
             | none => none
      else some (seg, none)
    match nameIdx with
    | none => .error ("invalid index in segment " ++ String.mk seg)
    | some (name, idxOpt) =>
      let afterName : Except String JSON :=
        if name = [] then .ok cur
        else match cur with
             | .obj kvs => .ok (mapGet kvs (String.mk name))
             | _ => .error ("expected object for segment " ++ String.mk name)
      match afterName with
      | .error e => .error e
      | .ok cur2 =>
        match idxOpt with
        | none => .ok cur2
        | some idx =>
          if idx < 0 then .ok cur2
          else match cur2 with
               | .arr xs =>
                 match xs[idx.toNat]? with
                 | some el => .ok el
                 | none => .error ("index out of range for segment " ++ String.mk seg)
               | _ => .error ("expected array for segment " ++ String.mk seg)

/-- The dotted-path loop of `evalJSONPath` (`runner.go:536-571`). -/
def evalDotted (cur : JSON) : List (List Char) → Except String JSON
  | [] => .ok cur
  | seg :: rest =>
    match evalSeg cur seg with
    | .ok c2 => evalDotted c2 rest
    | .error e => .error e

/-- Body of `evalJSONPath` (`runner.go:484`), with the recursive calls
abstracted as `recurse`: trim the path, reject an empty one, try the
filter regex, then the index regex, then fall through to the dotted
path. Error messages carry the original (untrimmed) path as in the Go
`fmt.Errorf` calls. -/
def evalStep (recurse : JSON → String → Except String JSON)
    (obj : JSON) (path : String) : Except String JSON :=
  let p := goTrimSpace path.data
  if p = [] then .error "empty path"
  else
    match parseFilter p with
    | some (field, val, rest) =>
      match obj with
      | .arr elems =>
        let ms := elems.filter (fun el =>
          match el with
          | .obj kvs => goSprint (mapGet kvs (String.mk field)) == String.mk val
          | _ => false)
        match ms with
        | [] => .error ("no match for filter " ++ path)
        | first :: _ =>
          if rest = [] then .ok (.arr ms)
          else recurse first (String.mk rest)
      | _ => .error ("expected array for filter " ++ path)
    | none =>
      match parseIndex p with
      | some (ds, rest) =>
        match obj with
        | .arr elems =>
          match elems[natOfDigits ds]? with
          | none => .error ("index out of range for " ++ path)
          | some el =>
            if rest = [] then .ok el
            else recurse el (String.mk rest)
        | _ => .error ("expected array for index " ++ path)
      | none => evalDotted obj (splitOnDot (stripDollar p))

/-- Fueled `evalJSONPath`; each recursive call strictly decreases the
path length, and the wrapper supplies more fuel than the length, so the
`0` branch is unreachable (`evalJSONPathF_irrel`). -/
def evalJSONPathF : Nat → JSON → String → Except String JSON
  | 0, _, _ => .error "unreachable: fuel exhausted"
  | fuel + 1, obj, path => evalStep (evalJSONPathF fuel) obj path

/-- The function `evalJSONPath` of `runner.go:484`. -/
def evalJSONPath (obj : JSON) (path : String) : Except String JSON :=
  evalJSONPathF (path.data.length + 1) obj path

example :
    evalJSONPath (.arr [.obj [("id", .num "1"), ("title", .str "A")],
                        .obj [("id", .num "2"), ("title", .str "B")]])
      "$[?(@.id==2)].title" = .ok (.str "B") := rfl
example :
    evalJSONPath (.arr [.obj [("name", .str "X")]]) "$[0].name" = .ok (.str "X") := rfl
example :
    evalJSONPath (.arr []) "$[0].name" = .error "index out of range for $[0].name" := rfl
example : evalJSONPath (.obj [("user", .obj [("age", .num "30")])]) "user.age" = .ok (.num "30") := rfl
example : evalJSONPath (.obj [("user", .obj [("tags", .arr [.str "admin", .str "editor"])])]) "user.tags[0]" = .ok (.str "admin") := rfl
example : evalJSONPath (.obj [("a", .num "1")]) "missing" = .ok .null := rfl

/-- Go `strings.TrimSpace` on `String`. -/
def goTrimSpaceStr (s : String) : String := String.mk (goTrimSpace s.data)

/-- Go `%q` rendering, simplified to plain double-quoting (none of the
values handled below contain characters Go would escape). -/
def goQuote (s : String) : String := "\"" ++ s ++ "\""

/-- Go `strings.Contains sub` scanning the character list. -/
def goContainsL (sub : List Char) : List Char → Bool
  | [] => sub.isEmpty
  | s@(_ :: t) => sub.isPrefixOf s || goContainsL sub t

/-- Go `strings.Contains`. -/
def goContainsStr (s sub : String) : Bool := goContainsL sub.data s.data

/-- Go `strings.HasPrefix`. -/
def goHasPrefixStr (s p : String) : Bool := p.data.isPrefixOf s.data

/-- Go `strings.HasSuffix`. -/
def goHasSuffixStr (s suf : String) : Bool := suf.data.isSuffixOf s.data

/-- The status expectation of `executeStep` (`runner.go:349-351`): the
comparison runs only when the declared status is nonzero (an absent
`expect.status` unmarshals to the Go zero value `0`). -/
def checkStatus (expected actual : Int) : Option String :=
  if expected ≠ 0 ∧ actual ≠ expected then
    some ("expected status " ++ toString expected ++ ", got " ++ toString actual)
  else none

/-- One header expectation of `executeStep` (`runner.go:353-380`):
blank name is an error; declaring neither `value` nor `contains` is an
error; a declared `value` is variable-substituted and compared for
equality; a declared `contains` is variable-substituted and checked for
substring containment; both checks run when both are declared (equality
first). `getHeader` is `resp.Header.Get`. -/
structure HeaderExpectation where
  name : String
  value : String
  contains : String

def checkHeaderExpectation (getHeader : String → String) (vars : Vars)
    (h : HeaderExpectation) : Option String :=
  let name := goTrimSpaceStr h.name
  if name = "" then some "header expectation must specify a name"
  else if h.value = "" ∧ h.contains = "" then
    some ("header expectation for " ++ name ++ " must specify value or contains")
  else
    let actual := getHeader name
    let eqCheck : Option String :=
      if h.value ≠ "" then
        let expected := applyVars h.value vars
        if actual ≠ expected then
          some ("expected header " ++ name ++ " to equal " ++ goQuote expected ++
                ", got " ++ goQuote actual)
        else none
      else none
    match eqCheck with
    | some e => some e
    | none =>
      if h.contains ≠ "" then
        let expected := applyVars h.contains vars
        if !goContainsStr actual expected then
          some ("expected header " ++ name ++ " to contain " ++ goQuote expected ++
                ", got " ++ goQuote actual)
        else none
      else none

/-- The header-expectation loop of `executeStep`: first failure wins. -/
def checkHeaderExpectations (getHeader : String → String) (vars : Vars) :
    List HeaderExpectation → Option String
  | [] => none
  | h :: t =>
    match checkHeaderExpectation getHeader vars h with
    | some e => some e
    | none => checkHeaderExpectations getHeader vars t

/-- The comparison of one `json_path_match` entry (`runner.go:399-405`):
the declared value's `fmt.Sprint` form is variable-substituted and
compared against the `fmt.Sprint` form of the selected value (string
comparison, never typed). The Go mismatch message renders the actual
value with `%q`; that rendering is simplified to the `fmt.Sprint` form
here (no claim depends on this message's text). -/
def checkJSONPathMatch (path : String) (actual declared : JSON) (vars : Vars) :
    Option String :=
  let expected := applyVars (goSprint declared) vars
  if goSprint actual ≠ expected then
    some ("jsonpath " ++ path ++ " expected " ++ goQuote expected ++
          ", got " ++ goSprint actual)
  else none

/-- One full `json_path_match` iteration (`runner.go:394-406`): a
path-query failure is wrapped as `jsonpath <path>: <cause>` (a
navigation error); a successful selection proceeds to the string
comparison. -/
def runJSONPathMatcher (body : JSON) (path : String) (declared : JSON)
    (vars : Vars) : Option String :=
  match evalJSONPath body path with
  | .error e => some ("jsonpath " ++ path ++ ": " ++ e)
  | .ok actual => checkJSONPathMatch path actual declared vars

/-- Go `strings.TrimSuffix s "/"`. -/
def trimOneSlashEnd (s : List Char) : List Char :=
  match s.getLast? with
  | some '/' => s.dropLast
  | _ => s

/-- Go `strings.TrimPrefix s "/"`. -/
def trimOneSlashStart (s : List Char) : List Char :=
  match s with
  | '/' :: t => t
  | _ => s

/-- Characters `url.QueryEscape` leaves unescaped in a query component:
`[A-Za-z0-9\-_.~]`. -/
def isUnreservedQuery (c : Char) : Bool :=
  c.isAlphanum || c == '-' || c == '_' || c == '.' || c == '~'

/-- Upper-case hexadecimal digit. -/
def hexDigit (n : Nat) : Char :=
  if n < 10 then Char.ofNat ('0'.toNat + n) else Char.ofNat ('A'.toNat + n - 10)

/-- Percent-escape of one byte. -/
def pctByte (b : Nat) : List Char := ['%', hexDigit (b / 16), hexDigit (b % 16)]

/-- UTF-8 bytes of a character (as `Nat`s), the bytes Go escapes. -/
def utf8Bytes (c : Char) : List Nat :=
  let n := c.toNat
  if n < 0x80 then [n]
  else if n < 0x800 then [0xC0 + n / 64, 0x80 + n % 64]
  else if n < 0x10000 then [0xE0 + n / 4096, 0x80 + n / 64 % 64, 0x80 + n % 64]
  else [0xF0 + n / 262144, 0x80 + n / 4096 % 64, 0x80 + n / 64 % 64, 0x80 + n % 64]

/-- Go `url.QueryEscape`: unreserved characters kept, space becomes
`+`, everything else percent-escaped byte-wise. -/
def queryEscape (s : String) : String :=
  String.mk ((s.data.map (fun c =>
    if isUnreservedQuery c then [c]
    else if c = ' ' then ['+']
    else ((utf8Bytes c).map pctByte).flatten)).flatten)

/-- Byte-wise string order as a decidable relation (the order of Go
`sort.Strings`). -/
def strLe (a b : String) : Prop := goStrLe a.data b.data = true

instance : DecidableRel strLe := fun a b =>
  inferInstanceAs (Decidable (goStrLe a.data b.data = true))

/-- Sorting with the order of Go `sort.Strings` (any correct sort
produces the same list, since the order is total and antisymmetric). -/
def goSortStrings (l : List String) : List String := List.insertionSort strLe l

/-- Go `url.Values.Encode` for single-valued keys: keys sorted, each
pair rendered `escape(k)=escape(v)`, joined with `&` (keys coming from a
Go map are distinct). -/
def encodeQuery (params : List (String × String)) : String :=
  String.intercalate "&"
    ((List.insertionSort pairLe params).map
      (fun p => queryEscape p.1 ++ "=" ++ queryEscape p.2))

/-- URL assembly of `executeStep` (`runner.go:293-303` and `331-337`):
substitute variables into the raw URL; when a `params` map is declared,
truncate the URL at the first `?`; join a non-`http`-prefixed URL to
`base_url` with a single slash; finally, when `params` is declared,
replace the request's query string with the encoded substituted params
(the Go code sets each pair on `req.URL.Query()` — empty after the
truncation — and overwrites `RawQuery` with its `Encode()`). Parameter
keys are not substituted, only values (`runner.go:334`). -/
def baseURLOf (vars : Vars) : String :=
  match lookupVar vars "base_url" with
  | some b => b
  | none => ""

/-- The `base_url` join of `executeStep` (`runner.go:300-303`): a URL
not starting with `http` is glued to a nonempty `base_url` with exactly
one slash. -/
def joinBase (requestURL : String) (vars : Vars) : String :=
  if ¬goHasPrefixStr requestURL "http" = true ∧ baseURLOf vars ≠ "" then
    String.mk (trimOneSlashEnd (baseURLOf vars).data) ++ "/" ++
    String.mk (trimOneSlashStart requestURL.data)
  else requestURL

def buildFinalURL (rawURL : String) (params : List (String × String))
    (vars : Vars) : String :=
  let requestURL := applyVars rawURL vars
  let requestURL :=
    if params ≠ [] then String.mk (requestURL.data.takeWhile (fun c => c ≠ '?'))
    else requestURL
  let url := joinBase requestURL vars
  if params ≠ [] then
    url ++ "?" ++ encodeQuery (params.map (fun p => (p.1, applyVars p.2 vars)))
  else url

/-- One directory entry as returned by Go `os.ReadDir`. -/
structure DirEntry where
  name : String
  isDir : Bool

/-- Recognized workflow-file suffix test of `collectFiles`
(`runner.go:186`). -/
def isWorkflowFile (name : String) : Bool :=
  goHasSuffixStr name ".yaml" || goHasSuffixStr name ".yml"

/-- Go `filepath.Join dir name` for a clean directory path (the `Clean`
normalization `filepath.Join` also applies is the identity there). -/
def joinPath (dir name : String) : String := dir ++ "/" ++ name

/-- The directory branch of `collectFiles` (`runner.go:177-191`): keep
the non-directory entries whose name ends in `.yaml` or `.yml`, join
them to the directory path, and sort (`sort.Strings`). `entries` is the
`os.ReadDir` listing of the directory's direct entries — subdirectory
contents never appear in it. -/
def collectFilesDir (path : String) (entries : List DirEntry) : List String :=
  goSortStrings
    (((entries.filter (fun e => !e.isDir && isWorkflowFile e.name)).map
      (fun e => joinPath path e.name)))

/-- One workflow step's identifying fields (`step`, `description`). -/
structure MStep where
  step : String
  description : String

/-- The `StepError` record of `runner.go:84-90` (the cause is carried as
its message string). -/
structure StepError where
  file : String
  step : String
  description : String
  err : String

/-- Outcome of one iteration of the step loop of `runFile`
(`runner.go:225-245`), with the effectful calls abstracted as oracles
indexed by step position: `resolve i` is the error of
`resolveBodyFile` (its cause is wrapped as `resolve body file: ...` and
`executeStep` is skipped), otherwise `exec i vars` returns the updated
variable store and the error of `executeStep`. Returns the optional
`StepError` and the store for the next step. -/
def stepOutcome (file : String) (resolve : Nat → Option String)
    (exec : Nat → Vars → Vars × Option String) (i : Nat) (st : MStep)
    (vars : Vars) : Option StepError × Vars :=
  match resolve i with
  | some e => (some ⟨file, st.step, st.description, "resolve body file: " ++ e⟩, vars)
  | none =>
    let ex := exec i vars
    (ex.2.map (fun e => ⟨file, st.step, st.description, e⟩), ex.1)

/-- The step loop of `runFile` (`runner.go:224-245`), starting at step
index `i`: every failure is appended to the error list and the loop
continues with the next step. The second component instruments the loop
with the indices of the steps whose `executeStep` was invoked. -/
def runStepsFrom (file : String) (resolve : Nat → Option String)
    (exec : Nat → Vars → Vars × Option String) :
    List MStep → Nat → Vars → List StepError × List Nat
  | [], _, _ => ([], [])
  | st :: rest, i, vars =>
    match resolve i with
    | some e =>
      let r := runStepsFrom file resolve exec rest (i + 1) vars
      (⟨file, st.step, st.description, "resolve body file: " ++ e⟩ :: r.1, r.2)
    | none =>
      let ex := exec i vars
      let r := runStepsFrom file resolve exec rest (i + 1) ex.1
      (match ex.2 with
       | some e => ⟨file, st.step, st.description, e⟩ :: r.1
       | none => r.1, i :: r.2)

/-- The step loop of `runFile` over a whole document. -/
def runStepsModel (file : String) (resolve : Nat → Option String)
    (exec : Nat → Vars → Vars × Option String) (steps : List MStep)
    (vars : Vars) : List StepError × List Nat :=
  runStepsFrom file resolve exec steps 0 vars

/-- Shape of the queries of claim C1: `$[?(@.field==value)]` optionally
followed by `.rest`. -/
def mkFilterQuery (field value rest : String) : String :=
  "$[?(@." ++ field ++ "==" ++ value ++ ")]" ++
  (if rest = "" then "" else "." ++ rest)

/-- Shape of the queries of claim C6: `$[ds]` optionally followed by
`.rest` (`ds` a digit run). -/
def mkIndexQuery (ds rest : String) : String :=
  "$[" ++ ds ++ "]" ++ (if rest = "" then "" else "." ++ rest)

/-- The elements the filter query selects (`runner.go:497-504`): array
elements that are objects whose `field` member stringifies to exactly
`value` (an absent member is the `nil` interface and stringifies to
`<nil>`). -/
def filterMatches (elems : List JSON) (field value : String) : List JSON :=
  elems.filter (fun el =>
    match el with
    | .obj kvs => goSprint (mapGet kvs field) == value
    | _ => false)

example : buildFinalURL "http://h/p?x=1" [("a", "2")] [("base_url", "")] = "http://h/p?a=2" := rfl
example : encodeQuery [("b", "x y"), ("a", "1&2")] = "a=1%262&b=x+y" := rfl
example : collectFilesDir "d" [⟨"b.yaml", false⟩, ⟨"a.yml", false⟩, ⟨"c.yaml", true⟩, ⟨"x.txt", false⟩]
  = ["d/a.yml", "d/b.yaml"] := rfl

/-- C10: the status check of `executeStep` runs exactly when the
declared status is nonzero; a declared status of `0` (the unmarshalled
zero value of an absent `expect.status`) never fails, whatever the
actual response code. -/
theorem C10_status_zero_never_fails :
    (∀ actual : Int, checkStatus 0 actual = none) ∧
    (∀ expected actual : Int,
       checkStatus expected actual = none ↔ (expected = 0 ∨ actual = expected)) := by
  constructor
  · intro a
    simp [checkStatus]
  · intro e a
    simp only [checkStatus, ne_eq, ite_eq_right_iff]
    constructor
    · intro h
      by_cases he : e = 0
      · exact Or.inl he
      · by_cases ha : a = e
        · exact Or.inr ha
        · exact absurd (h ⟨he, ha⟩) (by simp)
    · rintro (he | ha) ⟨h1, h2⟩
      · exact absurd he h1
      · exact absurd ha h2

/-- C3: a `json_path_match` entry compares the selected value and the
declared value by their `fmt.Sprint` string forms, never by typed
equality: the comparison passes exactly when the string forms agree
after variable substitution; in particular the JSON number `30`
(distinct from the string `"30"` as a typed value) passes against the
declared string `"30"`, and a boolean leaf passes against its string
form. -/
theorem C3_string_form_comparison :
    (∀ (p : String) (actual declared : JSON) (vars : Vars),
       checkJSONPathMatch p actual declared vars = none ↔
         goSprint actual = applyVars (goSprint declared) vars) ∧
    (∀ p : String, checkJSONPathMatch p (.num "30") (.str "30") [] = none) ∧
    (∀ p : String, checkJSONPathMatch p (.bool true) (.str "true") [] = none) ∧
    JSON.num "30" ≠ JSON.str "30" := by
  refine ⟨?_, ?_, ?_, fun h => JSON.noConfusion h⟩
  · intro p a d vars
    simp [checkJSONPathMatch]
  · intro p
    simp [checkJSONPathMatch]
    rfl
  · intro p
    simp [checkJSONPathMatch]
    rfl

/-- C5 counterexample: a header expectation declaring BOTH an equality
value and a containment value is accepted by `executeStep` (both checks
run and the step passes) — the claim's requirement that exactly one of
the two be declared is not enforced by the code. -/
theorem C5_counterexample :
    (HeaderExpectation.mk "X-T" "a" "a").value ≠ "" ∧
    (HeaderExpectation.mk "X-T" "a" "a").contains ≠ "" ∧
    checkHeaderExpectation (fun _ => "a") [] (HeaderExpectation.mk "X-T" "a" "a") = none :=
  ⟨by decide, by decide, rfl⟩

/-- C5 (amended): for every header expectation, the name must be
non-blank and at least one of the equality value or the containment
value must be declared (declaring neither fails the step); each
declared check is evaluated — equality first, containment second, both
when both are declared — and a mismatch fails the step with the
expected and the actual value in the message; when every declared
check passes, the expectation passes. -/
theorem C5_header_expectation_checks (getHeader : String → String)
    (vars : Vars) (h : HeaderExpectation) :
    (goTrimSpaceStr h.name = "" →
       checkHeaderExpectation getHeader vars h =
         some "header expectation must specify a name") ∧
    (goTrimSpaceStr h.name ≠ "" → h.value = "" → h.contains = "" →
       checkHeaderExpectation getHeader vars h =
         some ("header expectation for " ++ goTrimSpaceStr h.name ++
               " must specify value or contains")) ∧
    (goTrimSpaceStr h.name ≠ "" → h.value ≠ "" →
       getHeader (goTrimSpaceStr h.name) ≠ applyVars h.value vars →
       checkHeaderExpectation getHeader vars h =
         some ("expected header " ++ goTrimSpaceStr h.name ++ " to equal " ++
               goQuote (applyVars h.value vars) ++ ", got " ++
               goQuote (getHeader (goTrimSpaceStr h.name)))) ∧
    (goTrimSpaceStr h.name ≠ "" →
       (h.value ≠ "" → getHeader (goTrimSpaceStr h.name) = applyVars h.value vars) →
       h.contains ≠ "" →
       goContainsStr (getHeader (goTrimSpaceStr h.name)) (applyVars h.contains vars) = false →
       checkHeaderExpectation getHeader vars h =
         some ("expected header " ++ goTrimSpaceStr h.name ++ " to contain " ++
               goQuote (applyVars h.contains vars) ++ ", got " ++
               goQuote (getHeader (goTrimSpaceStr h.name)))) ∧
    (goTrimSpaceStr h.name ≠ "" → (h.value ≠ "" ∨ h.contains ≠ "") →
       (h.value ≠ "" → getHeader (goTrimSpaceStr h.name) = applyVars h.value vars) →
       (h.contains ≠ "" →
         goContainsStr (getHeader (goTrimSpaceStr h.name)) (applyVars h.contains vars) = true) →
       checkHeaderExpectation getHeader vars h = none) := by
  refine ⟨?_, ?_, ?_, ?_, ?_⟩
  · intro hn
    simp [checkHeaderExpectation, hn]
  · intro hn hv hc
    simp [checkHeaderExpectation, hn, hv, hc]
  · intro hn hv hne
    simp only [checkHeaderExpectation]
    rw [if_neg hn, if_neg (by simp [hv])]
    rw [if_pos hv, if_pos hne]
  · intro hn hveq hc hcon
    simp only [checkHeaderExpectation]
    rw [if_neg hn, if_neg (by simp [hc])]
    by_cases hv : h.value = ""
    · rw [if_neg (by simp [hv])]
      rw [if_pos hc, if_pos (by simp [hcon])]
    · rw [if_pos hv, if_neg (by simp [hveq hv])]
      rw [if_pos hc, if_pos (by simp [hcon])]
  · intro hn hone hveq hcon
    simp only [checkHeaderExpectation]
    rw [if_neg hn, if_neg (by rintro ⟨hv, hc⟩; rcases hone with hx | hx <;> [exact hx hv; exact hx hc])]
    by_cases hv : h.value = ""
    · rw [if_neg (by simp [hv])]
      by_cases hc : h.contains = ""
      · rw [if_neg (by simp [hc])]
      · rw [if_pos hc, if_neg (by simp [hcon hc])]
    · rw [if_pos hv, if_neg (by simp [hveq hv])]
      by_cases hc : h.contains = ""
      · rw [if_neg (by simp [hc])]
      · rw [if_pos hc, if_neg (by simp [hcon hc])]

/-- C5 amended-theorem witness: a declared equality value `v` against
an actual header value `x` fails with both values in the message. -/
theorem C5_header_expectation_checks_witness :
    checkHeaderExpectation (fun _ => "x") [] (HeaderExpectation.mk "N" "v" "") =
      some ("expected header N to equal " ++ goQuote (applyVars "v" []) ++
            ", got " ++ goQuote "x") :=
  (C5_header_expectation_checks (fun _ => "x") [] (HeaderExpectation.mk "N" "v" "")).2.2.1
    (by decide) (by decide) (by decide)

theorem strDataAppend (s t : String) : (s ++ t).data = s.data ++ t.data := rfl

theorem strMkData (s : String) : String.mk s.data = s := rfl

theorem mem_of_mem_takeWhileNe {l : List Char} {a c : Char}
    (h : c ∈ l.takeWhile (fun x => x ≠ a)) : c ≠ a := by
  induction l with
  | nil => simp [List.takeWhile] at h
  | cons x t ih =>
    rw [List.takeWhile_cons] at h
    by_cases hx : x = a
    · rw [if_neg (by simp [hx])] at h
      simp at h
    · rw [if_pos (by simp [hx])] at h
      simp only [List.mem_cons] at h
      rcases h with h | h
      · simpa [h] using hx
      · exact ih h

theorem notMem_trimOneSlashEnd {l : List Char} {c : Char}
    (h : c ∉ l) : c ∉ trimOneSlashEnd l := by
  intro hm
  apply h
  unfold trimOneSlashEnd at hm
  split at hm
  · exact List.dropLast_subset _ hm
  · exact hm

theorem notMem_trimOneSlashStart {l : List Char} {c : Char}
    (h : c ∉ l) : c ∉ trimOneSlashStart l := by
  intro hm
  apply h
  unfold trimOneSlashStart at hm
  split at hm
  · exact List.mem_cons_of_mem _ hm
  · exact hm

/-- The pre-query part of the assembled URL is free of `?` when
`base_url` is: the truncation removed the URL's own query. -/
theorem joinBase_no_question (u : String) (vars : Vars)
    (hu : '?' ∉ u.data) (hb : '?' ∉ (baseURLOf vars).data) :
    '?' ∉ (joinBase u vars).data := by
  unfold joinBase
  split
  · intro hm
    rw [strDataAppend, strDataAppend] at hm
    rcases List.mem_append.mp hm with hm | hm
    · rcases List.mem_append.mp hm with hm | hm
      · exact notMem_trimOneSlashEnd hb hm
      · simp at hm
    · exact notMem_trimOneSlashStart hu hm
  · exact hu

/-- C7 counterexample: with a `params` map declared, a query string
literally present in the URL is NOT left unchanged — it is discarded
and replaced by the encoded params. `http://h/p?x=1` with
`params = (a: 2)` yields `http://h/p?a=2`; the literal pair `x=1` is
gone from the request URL. -/
theorem C7_counterexample :
    buildFinalURL "http://h/p?x=1" [("a", "2")] [("base_url", "")] = "http://h/p?a=2" ∧
    goContainsStr (buildFinalURL "http://h/p?x=1" [("a", "2")] [("base_url", "")]) "x=1" = false ∧
    goContainsStr "http://h/p?x=1" "x=1" = true := by
  refine ⟨rfl, ?_, by decide⟩
  decide

/-- C7 (amended): for every step declaring a `params` map, the request
URL (after variable substitution) is first truncated at its first `?`
— discarding any query string literally present in the URL — then
joined to `base_url` as usual, and the final query string is exactly
the encoding of the params map with variables substituted into the
values; the part of the URL before the `?` (which contains no `?` when
`base_url` does not) is otherwise unchanged. Without a `params` map
the substituted URL, query string included, is used as is. -/
theorem C7_params_replace_query (rawURL : String)
    (params : List (String × String)) (vars : Vars) :
    (params = [] →
       buildFinalURL rawURL params vars = joinBase (applyVars rawURL vars) vars) ∧
    (params ≠ [] →
       buildFinalURL rawURL params vars =
         joinBase (String.mk ((applyVars rawURL vars).data.takeWhile
             (fun c => c ≠ '?'))) vars ++ "?" ++
         encodeQuery (params.map (fun p => (p.1, applyVars p.2 vars)))) ∧
    (params ≠ [] → '?' ∉ (baseURLOf vars).data →
       '?' ∉ (joinBase (String.mk ((applyVars rawURL vars).data.takeWhile
           (fun c => c ≠ '?'))) vars).data) := by
  refine ⟨?_, ?_, ?_⟩
  · intro hp
    simp [buildFinalURL, hp]
  · intro hp
    simp [buildFinalURL, hp]
  · intro hp hb
    exact joinBase_no_question _ vars (fun hm => mem_of_mem_takeWhileNe hm rfl) hb

/-- C7 amended-theorem witness at the counterexample's input. -/
theorem C7_params_replace_query_witness :
    buildFinalURL "http://h/p?x=1" [("a", "2")] [("base_url", "")] =
      joinBase (String.mk (((applyVars "http://h/p?x=1" [("base_url", "")])).data.takeWhile
          (fun c => c ≠ '?'))) [("base_url", "")] ++ "?" ++
      encodeQuery ([("a", "2")].map (fun p => (p.1, applyVars p.2 [("base_url", "")]))) :=
  (C7_params_replace_query "http://h/p?x=1" [("a", "2")] [("base_url", "")]).2.1
    (by decide)

/-- C4: one step's failure — at body-file resolution, request issue,
expectation checking, or capture — produces exactly one `StepError`
carrying the source file, the step identifier, the description and the
underlying cause, and never stops the loop: the steps whose
`executeStep` runs are exactly those whose body file resolved,
independent of any earlier failures, in document order. -/
theorem C4_step_failure_isolation (file : String)
    (resolve : Nat → Option String)
    (exec : Nat → Vars → Vars × Option String) :
    (∀ (st : MStep) (rest : List MStep) (i : Nat) (vars : Vars),
       runStepsFrom file resolve exec (st :: rest) i vars =
         ((stepOutcome file resolve exec i st vars).1.toList ++
            (runStepsFrom file resolve exec rest (i + 1)
               (stepOutcome file resolve exec i st vars).2).1,
          (if (resolve i).isNone then [i] else []) ++
            (runStepsFrom file resolve exec rest (i + 1)
               (stepOutcome file resolve exec i st vars).2).2)) ∧
    (∀ (steps : List MStep) (i : Nat) (vars : Vars) (e : StepError),
       e ∈ (runStepsFrom file resolve exec steps i vars).1 →
       e.file = file ∧
       ∃ st ∈ steps, e.step = st.step ∧ e.description = st.description) ∧
    (∀ (steps : List MStep) (i : Nat) (vars : Vars),
       (runStepsFrom file resolve exec steps i vars).2 =
         ((List.range steps.length).map (fun k => i + k)).filter
           (fun j => (resolve j).isNone)) := by
  refine ⟨?_, ?_, ?_⟩
  · intro st rest i vars
    cases hr : resolve i with
    | some err => simp [runStepsFrom, stepOutcome, hr]
    | none =>
      cases hx : (exec i vars).2 with
      | some err => simp [runStepsFrom, stepOutcome, hr, hx]
      | none => simp [runStepsFrom, stepOutcome, hr, hx]
  · intro steps
    induction steps with
    | nil => intro i vars e he; simp [runStepsFrom] at he
    | cons st rest ih =>
      intro i vars e he
      cases hr : resolve i with
      | some err =>
        simp only [runStepsFrom, hr, List.mem_cons] at he
        rcases he with he | he
        · subst he
          exact ⟨rfl, st, List.mem_cons_self .., rfl, rfl⟩
        · obtain ⟨hf, st2, hmem, h1, h2⟩ := ih (i + 1) vars e he
          exact ⟨hf, st2, List.mem_cons_of_mem _ hmem, h1, h2⟩
      | none =>
        simp only [runStepsFrom, hr] at he
        cases hx : (exec i vars).2 with
        | some err =>
          rw [hx] at he
          simp only [List.mem_cons] at he
          rcases he with he | he
          · subst he
            exact ⟨rfl, st, List.mem_cons_self .., rfl, rfl⟩
          · obtain ⟨hf, st2, hmem, h1, h2⟩ := ih (i + 1) (exec i vars).1 e he
            exact ⟨hf, st2, List.mem_cons_of_mem _ hmem, h1, h2⟩
        | none =>
          rw [hx] at he
          obtain ⟨hf, st2, hmem, h1, h2⟩ := ih (i + 1) (exec i vars).1 e he
          exact ⟨hf, st2, List.mem_cons_of_mem _ hmem, h1, h2⟩
  · intro steps
    induction steps with
    | nil => intro i vars; simp [runStepsFrom]
    | cons st rest ih =>
      intro i vars
      have hrange : ((List.range (rest.length + 1)).map (fun k => i + k)) =
          i :: (List.range rest.length).map (fun k => (i + 1) + k) := by
        rw [List.range_succ_eq_map, List.map_cons, List.map_map]
        refine congrArg (fun l => (i + 0) :: l) ?_
        refine List.map_congr_left (fun k _ => ?_)
        simp [Function.comp]
        omega
      cases hr : resolve i with
      | some err =>
        simp only [runStepsFrom, hr, List.length_cons, hrange, List.filter_cons]
        rw [if_neg (by simp [hr])]
        exact ih (i + 1) vars
      | none =>
        simp only [runStepsFrom, hr, List.length_cons, hrange, List.filter_cons]
        rw [if_pos (by simp [hr])]
        exact congrArg (fun l => i :: l) (ih (i + 1) (exec i vars).1)

theorem dropWhile_head_false {p : Char → Bool} :
    ∀ {x : List Char} {c : Char} {after : List Char},
      x.dropWhile p = c :: after → p c = false := by
  intro x
  induction x with
  | nil => intro c after h; simp at h
  | cons y t ih =>
    intro c after h
    rw [List.dropWhile_cons] at h
    by_cases hy : p y
    · rw [if_pos hy] at h
      exact ih h
    · rw [if_neg hy] at h
      injection h with h1 h2
      subst h1
      simpa using hy

theorem spanToBrace_sound {x i a : List Char}
    (h : spanToBrace x = some (i, a)) :
    x = i ++ '\x7d' :: a ∧ i ≠ [] ∧ ∀ c ∈ i, c ≠ '\x7d' := by
  unfold spanToBrace at h
  cases hd : x.dropWhile (fun c => decide (c ≠ '\x7d')) with
  | nil => rw [hd] at h; exact absurd h (by simp)
  | cons c after =>
    rw [hd] at h
    dsimp only at h
    by_cases ht : x.takeWhile (fun c => decide (c ≠ '\x7d')) = []
    · rw [if_pos ht] at h
      exact absurd h (by simp)
    · rw [if_neg ht] at h
      injection h with h2
      have h3 : x.takeWhile (fun c => decide (c ≠ '\x7d')) = i := congrArg Prod.fst h2
      have h4 : after = a := congrArg Prod.snd h2
      have hc : c = '\x7d' := by
        have := dropWhile_head_false hd
        simpa using this
      refine ⟨?_, h3 ▸ ht, fun d hd2 => mem_of_mem_takeWhileNe (h3 ▸ hd2)⟩
      conv_lhs => rw [← List.takeWhile_append_dropWhile
        (fun c => decide (c ≠ '\x7d')) x]
      rw [hd, h3, h4, hc]

theorem takeWhileNe_of_append {i : List Char} (a : List Char)
    (hnb : ∀ c ∈ i, c ≠ '\x7d') :
    (i ++ '\x7d' :: a).takeWhile (fun c => c ≠ '\x7d') = i := by
  induction i with
  | nil => simp [List.takeWhile_cons]
  | cons c t ih =>
    rw [List.cons_append, List.takeWhile_cons,
      if_pos (by simp [hnb c (List.mem_cons_self ..)])]
    rw [ih (fun c hc => hnb c (List.mem_cons_of_mem _ hc))]

theorem dropWhileNe_of_append {i : List Char} (a : List Char)
    (hnb : ∀ c ∈ i, c ≠ '\x7d') :
    (i ++ '\x7d' :: a).dropWhile (fun c => c ≠ '\x7d') = '\x7d' :: a := by
  induction i with
  | nil => simp [List.dropWhile_cons]
  | cons c t ih =>
    rw [List.cons_append, List.dropWhile_cons,
      if_pos (by simp [hnb c (List.mem_cons_self ..)])]
    exact ih (fun c hc => hnb c (List.mem_cons_of_mem _ hc))

theorem spanToBrace_complete {i : List Char} (a : List Char)
    (hi : i ≠ []) (hnb : ∀ c ∈ i, c ≠ '\x7d') :
    spanToBrace (i ++ '\x7d' :: a) = some (i, a) := by
  unfold spanToBrace
  rw [dropWhileNe_of_append a hnb]
  dsimp only
  rw [takeWhileNe_of_append a hnb, if_neg hi]

theorem applyVarsF_placeholder (vars : Vars) (k b : List Char) (f2 : Nat)
    (hk : k ≠ []) (hnb : ∀ c ∈ k, c ≠ '\x7d') :
    applyVarsF vars (f2 + 1) ('$' :: '\x7b' :: (k ++ '\x7d' :: b)) =
      (match lookupVar vars (String.mk k) with
       | some v => v.data
       | none => '$' :: '\x7b' :: (k ++ ['\x7d'])) ++ applyVarsF vars f2 b := by
  conv_lhs => rw [applyVarsF]
  rw [if_pos (by simp)]
  show (match spanToBrace (k ++ '\x7d' :: b) with
        | some (interior, after) =>
            (match lookupVar vars (String.mk interior) with
             | some v => v.data
             | none => '$' :: '\x7b' :: (interior ++ ['\x7d'])) ++
            applyVarsF vars f2 after
        | none => '$' :: applyVarsF vars f2 ('\x7b' :: (k ++ '\x7d' :: b))) = _
  rw [spanToBrace_complete b hk hnb]

theorem spanToBrace_length {x i a : List Char}
    (h : spanToBrace x = some (i, a)) : a.length + 2 ≤ x.length := by
  obtain ⟨hx, hi, -⟩ := spanToBrace_sound h
  subst hx
  rcases i with _ | ⟨c, t⟩
  · exact absurd rfl hi
  · simp [List.length_append]

theorem applyVarsF_irrel (vars : Vars) :
    ∀ (n : Nat) (l : List Char) (f g : Nat), l.length ≤ n →
      l.length ≤ f → l.length ≤ g →
      applyVarsF vars f l = applyVarsF vars g l := by
  intro n
  induction n with
  | zero =>
    intro l f g hn _ _
    have : l = [] := List.length_eq_zero.mp (Nat.le_zero.mp hn)
    subst this
    cases f <;> cases g <;> rfl
  | succ n ih =>
    intro l f g hn hf hg
    cases l with
    | nil => cases f <;> cases g <;> rfl
    | cons c t =>
      rcases f with - | f2
      · simp at hf
      rcases g with - | g2
      · simp at hg
      simp only [applyVarsF]
      have hlt : t.length ≤ n := by simp at hn; omega
      have hlf : t.length ≤ f2 := by simp at hf; omega
      have hlg : t.length ≤ g2 := by simp at hg; omega
      by_cases hc : c = '$' ∧ t.head? = some '\x7b'
      · rw [if_pos hc, if_pos hc]
        cases hs : spanToBrace t.tail with
        | none => exact congrArg (fun l => c :: l) (ih t f2 g2 hlt hlf hlg)
        | some pr =>
          obtain ⟨interior, after⟩ := pr
          have hlen : after.length + 2 ≤ t.tail.length := spanToBrace_length hs
          have htl : t.tail.length ≤ t.length := by
            cases t <;> simp
          refine congrArg (fun l => _ ++ l) (ih after f2 g2 ?_ ?_ ?_) <;> omega
      · rw [if_neg hc, if_neg hc]
        exact congrArg (fun l => c :: l) (ih t f2 g2 hlt hlf hlg)

theorem applyVarsF_no_placeholder (vars : Vars) :
    ∀ (l : List Char) (f : Nat), l.length ≤ f →
      hasPlaceholder l = false → applyVarsF vars f l = l := by
  intro l
  induction l with
  | nil => intro f _ _; cases f <;> rfl
  | cons c t ih =>
    intro f hf hpl
    rcases f with - | f2
    · simp at hf
    simp only [applyVarsF]
    simp only [hasPlaceholder] at hpl
    by_cases hc : c = '$' ∧ t.head? = some '\x7b' ∧ (spanToBrace t.tail).isSome
    · rw [if_pos hc] at hpl
      exact absurd hpl (by simp)
    · rw [if_neg hc] at hpl
      have ht : applyVarsF vars f2 t = t := ih f2 (by simp at hf; omega) hpl
      by_cases hc2 : c = '$' ∧ t.head? = some '\x7b'
      · rw [if_pos hc2]
        cases hs : spanToBrace t.tail with
        | none => rw [ht]
        | some pr => exact absurd ⟨hc2.1, hc2.2, by simp [hs]⟩ hc
      · rw [if_neg hc2, ht]

theorem applyVarsToArr_map (xs : List JSON) (vars : Vars) :
    applyVarsToArr xs vars = xs.map (fun x => applyVarsToInterface x vars) := by
  induction xs with
  | nil => rfl
  | cons x t ih => simp [applyVarsToArr, ih]

theorem applyVarsToObj_map (kvs : List (String × JSON)) (vars : Vars) :
    applyVarsToObj kvs vars =
      kvs.map (fun p => (p.1, applyVarsToInterface p.2 vars)) := by
  induction kvs with
  | nil => rfl
  | cons p t ih =>
    obtain ⟨k, v⟩ := p
    simp [applyVarsToObj, ih]

/-- C2: variable substitution is a pure, total function (every function
below is a total Lean function — no failure is even expressible):
a string with no placeholder occurrence is returned unchanged; a
`$\x7bk\x7d` occurrence whose identifier is in the store is replaced by
its value and scanning continues after it; an unknown identifier is
left verbatim, delimiters included; structured values keep their shape
— strings map to strings, sequences to sequences of the same length,
mappings to mappings with the keys untouched, and every other kind is
returned unchanged. -/
theorem C2_variable_substitution (vars : Vars) :
    (∀ s : String, hasPlaceholder s.data = false → applyVars s vars = s) ∧
    (∀ k b : String, k ≠ "" → (∀ c ∈ k.data, c ≠ '\x7d') →
       applyVars (String.mk ('$' :: '\x7b' :: (k.data ++ '\x7d' :: b.data))) vars =
         (match lookupVar vars k with
          | some v => v
          | none => String.mk ('$' :: '\x7b' :: (k.data ++ ['\x7d']))) ++
         applyVars b vars) ∧
    (∀ s, applyVarsToInterface (.str s) vars = .str (applyVars s vars)) ∧
    (∀ xs, applyVarsToInterface (.arr xs) vars =
       .arr (xs.map (fun x => applyVarsToInterface x vars))) ∧
    (∀ kvs, applyVarsToInterface (.obj kvs) vars =
       .obj (kvs.map (fun p => (p.1, applyVarsToInterface p.2 vars)))) ∧
    (applyVarsToInterface .null vars = .null) ∧
    (∀ b, applyVarsToInterface (.bool b) vars = .bool b) ∧
    (∀ n, applyVarsToInterface (.num n) vars = .num n) := by
  refine ⟨?_, ?_, fun s => rfl, ?_, ?_, rfl, fun b => rfl, fun n => rfl⟩
  · intro s hpl
    show String.mk _ = s
    rw [applyVarsF_no_placeholder vars s.data (s.data.length + 1) (by omega) hpl]
  · intro k b hk hnb
    have hkd : k.data ≠ [] := by
      intro h
      exact hk (by cases k with | mk d => simp at h; simp [h])
    show String.mk (applyVarsF vars
      (('$' :: '\x7b' :: (k.data ++ '\x7d' :: b.data)).length + 1)
      ('$' :: '\x7b' :: (k.data ++ '\x7d' :: b.data))) = _
    rw [show ('$' :: '\x7b' :: (k.data ++ '\x7d' :: b.data)).length + 1 =
      ('$' :: '\x7b' :: (k.data ++ '\x7d' :: b.data)).length + 1 from rfl]
    rw [applyVarsF_placeholder vars k.data b.data _ hkd hnb]
    have hb : applyVarsF vars
        ('$' :: '\x7b' :: (k.data ++ '\x7d' :: b.data)).length b.data =
        applyVarsF vars (b.data.length + 1) b.data := by
      refine applyVarsF_irrel vars (b.data.length + 1) b.data _ _ (by omega) ?_ (by omega)
      simp [List.length_append]
      omega
    rw [hb, strMkData k]
    cases hl : lookupVar vars k with
    | some v => rfl
    | none => rfl
  · intro xs
    show JSON.arr (applyVarsToArr xs vars) = _
    rw [applyVarsToArr_map]
  · intro kvs
    show JSON.obj (applyVarsToObj kvs vars) = _
    rw [applyVarsToObj_map]

/-- C2 witness: a placeholder-free string is unchanged; a known
identifier is replaced; an unknown identifier stays verbatim. -/
theorem C2_variable_substitution_witness :
    applyVars "plain" [("user_id", "42")] = "plain" ∧
    applyVars (String.mk ('$' :: '\x7b' :: ("user_id".data ++ '\x7d' :: "/post".data)))
        [("user_id", "42")] = "42/post" ∧
    applyVars (String.mk ('$' :: '\x7b' :: ("missing".data ++ '\x7d' :: "".data)))
        [("user_id", "42")] = String.mk ('$' :: '\x7b' :: ("missing".data ++ ['\x7d'])) := by
  refine ⟨(C2_variable_substitution _).1 "plain" (by decide), ?_, ?_⟩
  · exact ((C2_variable_substitution _).2.1 "user_id" "/post" (by decide)
      (by decide)).trans (by decide)
  · exact ((C2_variable_substitution _).2.1 "missing" "" (by decide)
      (by decide)).trans (by decide)

theorem goStrLe_total : ∀ a b : List Char, goStrLe a b = true ∨ goStrLe b a = true := by
  intro a
  induction a with
  | nil => intro b; left; rfl
  | cons x xs ih =>
    intro b
    cases b with
    | nil => right; rfl
    | cons y ys =>
      simp only [goStrLe]
      by_cases hxy : x = y
      · subst hxy
        rw [if_pos rfl, if_pos rfl]
        exact ih ys
      · rw [if_neg hxy, if_neg (Ne.symm hxy)]
        rcases lt_or_gt_of_ne hxy with h | h
        · left; simpa using h
        · right; simpa using h

theorem goStrLe_trans :
    ∀ a b c : List Char, goStrLe a b = true → goStrLe b c = true →
      goStrLe a c = true := by
  intro a
  induction a with
  | nil => intros; rfl
  | cons x xs ih =>
    intro b c hab hbc
    cases b with
    | nil => simp [goStrLe] at hab
    | cons y ys =>
      cases c with
      | nil => simp [goStrLe] at hbc
      | cons z zs =>
        simp only [goStrLe] at hab hbc ⊢
        by_cases hxy : x = y
        · subst hxy
          rw [if_pos rfl] at hab
          by_cases hyz : x = z
          · subst hyz
            rw [if_pos rfl] at hbc ⊢
            exact ih ys zs hab hbc
          · rw [if_neg hyz] at hbc ⊢
            exact hbc
        · rw [if_neg hxy] at hab
          have hlt : x < y := by simpa using hab
          by_cases hyz : y = z
          · subst hyz
            rw [if_neg hxy]
            simpa using hlt
          · rw [if_neg hyz] at hbc
            have hlt2 : y < z := by simpa using hbc
            have hxz : x < z := lt_trans hlt hlt2
            rw [if_neg (ne_of_lt hxz)]
            simpa using hxz

instance : IsTotal String strLe := ⟨fun a b => goStrLe_total a.data b.data⟩

instance : IsTrans String strLe :=
  ⟨fun a b c hab hbc => goStrLe_trans a.data b.data c.data hab hbc⟩

theorem goStrLe_append_left (p : List Char) :
    ∀ a b, goStrLe (p ++ a) (p ++ b) = goStrLe a b := by
  induction p with
  | nil => intro a b; rfl
  | cons c t ih =>
    intro a b
    simp only [List.cons_append, goStrLe, if_pos rfl]
    exact ih a b

theorem strLe_joinPath_iff (path a b : String) :
    strLe (joinPath path a) (joinPath path b) ↔ strLe a b := by
  show goStrLe ((path ++ "/") ++ a).data ((path ++ "/") ++ b).data = true ↔ _
  simp only [strDataAppend]
  rw [show path.data ++ "/".data ++ a.data = (path.data ++ "/".data) ++ a.data from rfl,
    show path.data ++ "/".data ++ b.data = (path.data ++ "/".data) ++ b.data from rfl,
    goStrLe_append_left]
  exact Iff.rfl

theorem orderedInsert_map_strLe (f : String → String)
    (hm : ∀ a b, strLe (f a) (f b) ↔ strLe a b) (x : String) :
    ∀ l, List.orderedInsert strLe (f x) (l.map f) =
      (List.orderedInsert strLe x l).map f := by
  intro l
  induction l with
  | nil => rfl
  | cons y t ih =>
    simp only [List.map_cons, List.orderedInsert]
    by_cases h : strLe x y
    · rw [if_pos ((hm x y).mpr h), if_pos h]
      simp
    · rw [if_neg (fun hc => h ((hm x y).mp hc)), if_neg h, List.map_cons, ih]

theorem insertionSort_map_strLe (f : String → String)
    (hm : ∀ a b, strLe (f a) (f b) ↔ strLe a b) :
    ∀ l, List.insertionSort strLe (l.map f) =
      (List.insertionSort strLe l).map f := by
  intro l
  induction l with
  | nil => rfl
  | cons y t ih =>
    simp only [List.map_cons, List.insertionSort, ih]
    exact orderedInsert_map_strLe f hm y _

/-- C8: on a directory, the Path Collector returns exactly the direct
entries that are not subdirectories and whose name ends in `.yaml` or
`.yml`, joined to the directory path, sorted lexicographically (the
code sorts the joined paths; since they share the `path/` part, the
byte-wise order of the joined paths is exactly the name order, first
conjunct). The
listing `entries` is non-recursive by construction (`os.ReadDir`
returns only direct entries). -/
theorem C8_collect_files (path : String) (entries : List DirEntry) :
    collectFilesDir path entries =
      (goSortStrings ((entries.filter
          (fun e => !e.isDir && isWorkflowFile e.name)).map
        (fun e => e.name))).map (fun n => joinPath path n) ∧
    List.Sorted strLe (collectFilesDir path entries) ∧
    (∀ f, f ∈ collectFilesDir path entries ↔
       ∃ e ∈ entries, e.isDir = false ∧ isWorkflowFile e.name = true ∧
         f = joinPath path e.name) := by
  refine ⟨?_, ?_, ?_⟩
  · show goSortStrings _ = _
    have hmap : (entries.filter (fun e => !e.isDir && isWorkflowFile e.name)).map
        (fun e => joinPath path e.name) =
        ((entries.filter (fun e => !e.isDir && isWorkflowFile e.name)).map
          (fun e => e.name)).map (fun n => joinPath path n) := by
      rw [List.map_map]
      rfl
    rw [hmap]
    exact insertionSort_map_strLe (fun n => joinPath path n)
      (fun a b => strLe_joinPath_iff path a b) _
  · exact List.sorted_insertionSort strLe _
  · intro f
    constructor
    · intro hf
      have hf2 := (List.perm_insertionSort strLe _).mem_iff.mp hf
      obtain ⟨e, he, hfe⟩ := List.mem_map.mp hf2
      have he2 := List.mem_filter.mp he
      have hb := he2.2
      simp only [Bool.and_eq_true, Bool.not_eq_true'] at hb
      exact ⟨e, he2.1, hb.1, hb.2, hfe.symm⟩
    · rintro ⟨e, he, hd, hw, rfl⟩
      refine (List.perm_insertionSort strLe _).mem_iff.mpr ?_
      refine List.mem_map.mpr ⟨e, ?_, rfl⟩
      refine List.mem_filter.mpr ⟨he, ?_⟩
      simp [hd, hw]

/-- C4 witness: a two-step document whose first step's body file is
missing records exactly one `StepError` for the first step — file, id,
description and wrapped cause — and still executes the second step. -/
theorem C4_step_failure_isolation_witness :
    runStepsFrom "f.yaml" (fun i => if i = 0 then some "no such file" else none)
        (fun _ v => (v, none)) [⟨"s1", "d1"⟩, ⟨"s2", "d2"⟩] 0 [] =
      ([⟨"f.yaml", "s1", "d1", "resolve body file: no such file"⟩], [1]) := by
  have h := (C4_step_failure_isolation "f.yaml"
      (fun i => if i = 0 then some "no such file" else none)
      (fun _ v => (v, none))).1 ⟨"s1", "d1"⟩ [⟨"s2", "d2"⟩] 0 []
  rw [h]
  rfl

theorem goTrimSpace_length_le (l : List Char) : (goTrimSpace l).length ≤ l.length := by
  unfold goTrimSpace
  have h1 : (l.dropWhile isGoSpace).length ≤ l.length :=
    (List.dropWhile_sublist isGoSpace).length_le
  have h2 : ((l.dropWhile isGoSpace).reverse.dropWhile isGoSpace).length ≤
      (l.dropWhile isGoSpace).reverse.length :=
    (List.dropWhile_sublist isGoSpace).length_le
  simp only [List.length_reverse] at h1 h2 ⊢
  omega

theorem stripLit_some : ∀ {lit x y : List Char},
    stripLit lit x = some y → x.length = lit.length + y.length := by
  intro lit
  induction lit with
  | nil =>
    intro x y h
    have hx : x = y := by
      have : some x = some y := h
      injection this
    subst hx
    simp
  | cons p ps ih =>
    intro x y h
    cases x with
    | nil => simp [stripLit] at h
    | cons c cs =>
      simp only [stripLit] at h
      by_cases hc : c = p
      · rw [if_pos hc] at h
        have := ih h
        simp only [List.length_cons]
        omega
      · rw [if_neg hc] at h
        exact absurd h (by simp)

theorem stripLit_append (lit rest : List Char) : stripLit lit (lit ++ rest) = some rest := by
  induction lit with
  | nil => rfl
  | cons p ps ih => simp [stripLit, ih]

theorem validSuffix_cases {s r : List Char} (h : validSuffix s = some r) :
    (s = [] ∧ r = []) ∨ (s = '.' :: r ∧ r.contains '\n' = false) := by
  cases s with
  | nil =>
    left
    refine ⟨rfl, ?_⟩
    injection h with h
    exact h.symm
  | cons c t =>
    right
    simp only [validSuffix] at h
    by_cases hc : c = '.' ∧ t.contains '\n' = false
    · rw [if_pos hc] at h
      injection h with h
      subst h
      exact ⟨by rw [hc.1], hc.2⟩
    · rw [if_neg hc] at h
      exact absurd h (by simp)

theorem validSuffix_length {s r : List Char} (h : validSuffix s = some r) :
    r.length ≤ s.length := by
  rcases validSuffix_cases h with ⟨hs, hr⟩ | ⟨hs, -⟩ <;> subst hs
  · simp [hr]
  · simp

theorem mem_splits2 : ∀ {s b suf : List Char},
    (b, suf) ∈ splits2 s → s = b ++ ')' :: ']' :: suf := by
  intro s
  induction s with
  | nil => intro b suf h; simp [splits2] at h
  | cons c t ih =>
    intro b suf h
    simp only [splits2] at h
    rcases List.mem_append.mp h with h1 | h1
    · by_cases hc : c = ')' ∧ t.head? = some ']'
      · rw [if_pos hc] at h1
        simp only [List.mem_singleton, Prod.mk.injEq] at h1
        obtain ⟨hb, hsuf⟩ := h1
        subst hb
        obtain ⟨hc1, hc2⟩ := hc
        subst hc1
        cases t with
        | nil => simp at hc2
        | cons d t2 =>
          simp only [List.head?_cons, Option.some.injEq] at hc2
          subst hc2
          simp only [List.tail_cons] at hsuf
          subst hsuf
          rfl
      · rw [if_neg hc] at h1
        simp at h1
    · obtain ⟨⟨b0, suf0⟩, hmem, heq⟩ := List.mem_map.mp h1
      obtain ⟨hb, hsuf⟩ := Prod.mk.injEq .. ▸ heq
      subst hb
      subst hsuf
      rw [ih hmem]
      rfl

theorem stripLeadQuote_length (s : List Char) : (stripLeadQuote s).length ≤ s.length := by
  cases s with
  | nil => exact le_rfl
  | cons c t =>
    simp only [stripLeadQuote]
    by_cases hc : quoteChar c = true
    · rw [if_pos hc]; simp
    · rw [if_neg hc]

theorem pickFilter_length {s v r : List Char} (h : pickFilter s = some (v, r)) :
    r.length + 2 ≤ s.length := by
  unfold pickFilter at h
  cases hl : ((splits2 (stripLeadQuote s)).reverse).filterMap (fun bs =>
      match groupOk bs.1, validSuffix bs.2 with
      | some g2, some g3 => some (g2, g3)
      | _, _ => none) with
  | nil => rw [hl] at h; simp at h
  | cons x xs =>
    rw [hl] at h
    simp only [List.head?_cons, Option.some.injEq] at h
    subst h
    have hx : (v, r) ∈ ((splits2 (stripLeadQuote s)).reverse).filterMap (fun bs =>
        match groupOk bs.1, validSuffix bs.2 with
        | some g2, some g3 => some (g2, g3)
        | _, _ => none) := by
      rw [hl]; exact List.mem_cons_self ..
    obtain ⟨⟨b, suf⟩, hmem, heq⟩ := List.mem_filterMap.mp hx
    have hvs : validSuffix suf = some r := by
      cases hg : groupOk b <;> cases hv2 : validSuffix suf <;>
        rw [hg, hv2] at heq <;> simp at heq
      exact heq.2 ▸ rfl
    have hsplit := mem_splits2 (List.mem_reverse.mp hmem)
    have h1 : suf.length + 2 ≤ (stripLeadQuote s).length := by
      rw [hsplit]
      simp [List.length_append]
    have h2 := validSuffix_length hvs
    have h3 := stripLeadQuote_length s
    omega

theorem parseFilterHead_length {p f s : List Char}
    (h : parseFilterHead p = some (f, s)) : s.length ≤ p.length := by
  unfold parseFilterHead at h
  cases hs : stripLit filterQueryHead p with
  | none => rw [hs] at h; exact absurd h (by simp)
  | some s0 =>
    rw [hs] at h
    dsimp only at h
    by_cases hc : s0.takeWhile wordChar ≠ [] ∧ (s0.dropWhile wordChar).take 2 = ['=', '=']
    · rw [if_pos hc] at h
      injection h with h
      have h2 : s = (s0.dropWhile wordChar).drop 2 := (congrArg Prod.snd h).symm
      have h3 : ((s0.dropWhile wordChar).drop 2).length ≤ s0.length := by
        have hsub : (s0.dropWhile wordChar).length ≤ s0.length :=
          (List.dropWhile_sublist wordChar).length_le
        simp only [List.length_drop]
        omega
      have h4 := stripLit_some hs
      subst h2
      omega
    · rw [if_neg hc] at h
      exact absurd h (by simp)

theorem parseFilter_length {p f v r : List Char}
    (h : parseFilter p = some (f, v, r)) : r.length < p.length := by
  unfold parseFilter at h
  cases hh : parseFilterHead p with
  | none => rw [hh] at h; exact absurd h (by simp)
  | some fs =>
    obtain ⟨f0, s⟩ := fs
    rw [hh] at h
    dsimp only at h
    cases hp : pickFilter s with
    | none => rw [hp] at h; exact absurd h (by simp)
    | some vr =>
      obtain ⟨v0, r0⟩ := vr
      rw [hp] at h
      simp only [Option.some.injEq, Prod.mk.injEq] at h
      obtain ⟨-, -, hr⟩ := h
      subst hr
      have h1 := pickFilter_length hp
      have h2 := parseFilterHead_length hh
      omega

theorem parseIndex_length {p ds r : List Char}
    (h : parseIndex p = some (ds, r)) : r.length < p.length := by
  unfold parseIndex at h
  cases hs : stripLit ['$', '['] p with
  | none => rw [hs] at h; exact absurd h (by simp)
  | some s =>
    rw [hs] at h
    dsimp only at h
    by_cases hc : s.takeWhile Char.isDigit ≠ [] ∧
        (s.dropWhile Char.isDigit).head? = some ']'
    · rw [if_pos hc] at h
      cases hv : validSuffix (s.dropWhile Char.isDigit).tail with
      | none => rw [hv] at h; exact absurd h (by simp)
      | some r0 =>
        rw [hv] at h
        simp only [Option.some.injEq, Prod.mk.injEq] at h
        obtain ⟨-, hr⟩ := h
        subst hr
        have h1 := validSuffix_length hv
        have h2 : (s.dropWhile Char.isDigit).tail.length + 1 ≤ s.length := by
          have hsub : (s.dropWhile Char.isDigit).length ≤ s.length :=
            (List.dropWhile_sublist Char.isDigit).length_le
          cases hd : s.dropWhile Char.isDigit with
          | nil => rw [hd] at hc; simp at hc
          | cons c t =>
            simp only [hd, List.tail_cons, List.length_cons] at hsub ⊢
            omega
        have h3 := stripLit_some hs
        simp only [List.length_cons, List.length_nil] at h3
        omega
    · rw [if_neg hc] at h
      exact absurd h (by simp)

theorem evalStep_congr (r1 r2 : JSON → String → Except String JSON)
    (obj : JSON) (path : String)
    (h : ∀ el q, q.data.length < path.data.length → r1 el q = r2 el q) :
    evalStep r1 obj path = evalStep r2 obj path := by
  unfold evalStep
  by_cases hp : goTrimSpace path.data = []
  · rw [if_pos hp, if_pos hp]
  · rw [if_neg hp, if_neg hp]
    cases hpf : parseFilter (goTrimSpace path.data) with
    | some tri =>
      obtain ⟨field, vr⟩ := tri
      obtain ⟨val, rest⟩ := vr
      simp only [hpf]
      cases obj with
      | arr elems =>
        dsimp only
        cases hms : elems.filter (fun el =>
            match el with
            | .obj kvs => goSprint (mapGet kvs (String.mk field)) == String.mk val
            | _ => false) with
        | nil => rfl
        | cons first ms =>
          dsimp only
          by_cases hrest : rest = []
          · rw [if_pos hrest, if_pos hrest]
          · rw [if_neg hrest, if_neg hrest]
            refine h first (String.mk rest) ?_
            have h1 := parseFilter_length hpf
            have h2 := goTrimSpace_length_le path.data
            show rest.length < path.data.length
            omega
      | null => rfl
      | bool b => rfl
      | num s => rfl
      | str s => rfl
      | obj kvs => rfl
    | none =>
      cases hpi : parseIndex (goTrimSpace path.data) with
      | some dr =>
        obtain ⟨ds, rest⟩ := dr
        simp only [hpf, hpi]
        cases obj with
        | arr elems =>
          dsimp only
          cases helem : elems[natOfDigits ds]? with
          | none => rfl
          | some el =>
            dsimp only
            by_cases hrest : rest = []
            · rw [if_pos hrest, if_pos hrest]
            · rw [if_neg hrest, if_neg hrest]
              refine h el (String.mk rest) ?_
              have h1 := parseIndex_length hpi
              have h2 := goTrimSpace_length_le path.data
              show rest.length < path.data.length
              omega
        | null => rfl
        | bool b => rfl
        | num s => rfl
        | str s => rfl
        | obj kvs => rfl
      | none => simp only [hpf, hpi]

theorem evalJSONPathF_irrel :
    ∀ (n f g : Nat) (obj : JSON) (path : String), path.data.length ≤ n →
      n < f → n < g → evalJSONPathF f obj path = evalJSONPathF g obj path := by
  intro n
  induction n with
  | zero =>
    intro f g obj path hn hf hg
    rcases f with - | f2
    · omega
    rcases g with - | g2
    · omega
    show evalStep (evalJSONPathF f2) obj path = evalStep (evalJSONPathF g2) obj path
    exact evalStep_congr _ _ obj path (fun el q hq => absurd hq (by omega))
  | succ n ih =>
    intro f g obj path hn hf hg
    rcases f with - | f2
    · omega
    rcases g with - | g2
    · omega
    show evalStep (evalJSONPathF f2) obj path = evalStep (evalJSONPathF g2) obj path
    refine evalStep_congr _ _ obj path (fun el q hq => ?_)
    exact ih f2 g2 el q (by omega) (by omega) (by omega)

/-- The recursion equation of `evalJSONPath`: the fuel is invisible. -/
theorem evalJSONPath_unfold (obj : JSON) (path : String) :
    evalJSONPath obj path = evalStep (fun el q => evalJSONPath el q) obj path := by
  show evalStep (evalJSONPathF path.data.length) obj path = _
  refine evalStep_congr _ _ obj path (fun el q hq => ?_)
  exact evalJSONPathF_irrel q.data.length _ _ el q le_rfl hq (by omega)

theorem mem_of_head? {l : List Char} {c : Char} (h : l.head? = some c) : c ∈ l := by
  cases l with
  | nil => simp at h
  | cons a t =>
    simp only [List.head?_cons, Option.some.injEq] at h
    simp [h]

theorem mem_of_getLast? {l : List Char} {c : Char} (h : l.getLast? = some c) : c ∈ l := by
  rw [← List.head?_reverse] at h
  exact List.mem_reverse.mp (mem_of_head? h)

theorem goTrimSpace_eq_self {l : List Char}
    (hh : ∀ c, l.head? = some c → isGoSpace c = false)
    (hl : ∀ c, l.getLast? = some c → isGoSpace c = false) :
    goTrimSpace l = l := by
  unfold goTrimSpace
  have h1 : l.dropWhile isGoSpace = l := by
    cases l with
    | nil => rfl
    | cons c t =>
      rw [List.dropWhile_cons, if_neg (by simp [hh c rfl])]
  rw [h1]
  have h2 : l.reverse.dropWhile isGoSpace = l.reverse := by
    cases hr : l.reverse with
    | nil => rfl
    | cons c t =>
      have hcl : l.getLast? = some c := by
        rw [← List.head?_reverse, hr]
        rfl
      rw [List.dropWhile_cons, if_neg (by simp [hl c hcl])]
  rw [h2, List.reverse_reverse]

theorem stripLit_cons_ne {p : Char} {ps : List Char} {c : Char} {cs : List Char}
    (h : c ≠ p) : stripLit (p :: ps) (c :: cs) = none := by
  simp only [stripLit]
  rw [if_neg h]

theorem parseFilterHead_not_dollar {l : List Char} (hne : l ≠ [])
    (hc : ∀ c, l.head? = some c → c ≠ '$') : parseFilterHead l = none := by
  cases l with
  | nil => exact absurd rfl hne
  | cons c t =>
    unfold parseFilterHead filterQueryHead
    rw [stripLit_cons_ne (hc c rfl)]

theorem parseFilter_not_dollar {l : List Char} (hne : l ≠ [])
    (hc : ∀ c, l.head? = some c → c ≠ '$') : parseFilter l = none := by
  unfold parseFilter
  rw [parseFilterHead_not_dollar hne hc]

theorem parseIndex_not_dollar {l : List Char} (hne : l ≠ [])
    (hc : ∀ c, l.head? = some c → c ≠ '$') : parseIndex l = none := by
  cases l with
  | nil => exact absurd rfl hne
  | cons c t =>
    unfold parseIndex
    rw [stripLit_cons_ne (hc c rfl)]

theorem stripDollar_eq_self {l : List Char} (h : l.head? ≠ some '$') :
    stripDollar l = l := by
  unfold stripDollar
  have hA : ¬(l.head? = some '$' ∧ l.tail.head? = some '.') := fun hx => h hx.1
  rw [if_neg hA, if_neg h]

theorem splitOnDot_no_dot {l : List Char} (h : ∀ c ∈ l, c ≠ '.') :
    splitOnDot l = [l] := by
  induction l with
  | nil => rfl
  | cons c t ih =>
    simp only [splitOnDot]
    rw [if_neg (h c (List.mem_cons_self ..)),
      ih (fun d hd => h d (List.mem_cons_of_mem _ hd))]

theorem contains_eq_false {l : List Char} {a : Char} (h : ∀ c ∈ l, c ≠ a) :
    l.contains a = false := by
  induction l with
  | nil => rfl
  | cons c t ih =>
    have h1 : (a == c) = false :=
      beq_eq_false_iff_ne.mpr (Ne.symm (h c (List.mem_cons_self ..)))
    have h2 := ih (fun d hd => h d (List.mem_cons_of_mem _ hd))
    rw [List.contains_cons, h1, h2]
    rfl

theorem evalSeg_plain (kvs : List (String × JSON)) (seg : List Char)
    (hne : seg ≠ []) (hnb : ∀ c ∈ seg, c ≠ '[') :
    evalSeg (.obj kvs) seg = .ok (mapGet kvs (String.mk seg)) := by
  unfold evalSeg
  rw [if_neg hne]
  rw [if_neg (fun hx => (hnb '[' (by simpa using hx.1)) rfl)]
  dsimp only
  rw [if_neg hne]

/-- C9: a dotted path-query whose single segment names a field absent
from the object does not fail: the Go map access yields the `nil`
interface, the loop ends, and the result is `nil`, whose `fmt.Sprint`
form is `<nil>`; consequently the `json_path_match` handling of such a
path is never the wrapped navigation error — it proceeds to the string
comparison of `<nil>` against the declared value. -/
theorem C9_missing_field_not_nav_error (kvs : List (String × JSON)) (f : String)
    (declared : JSON) (vars : Vars)
    (hne : f.data ≠ [])
    (hch : ∀ c ∈ f.data, isGoSpace c = false ∧ c ≠ '$' ∧ c ≠ '.' ∧ c ≠ '[')
    (habs : kvs.lookup f = none) :
    evalJSONPath (.obj kvs) f = .ok .null ∧
    goSprint .null = "<nil>" ∧
    runJSONPathMatcher (.obj kvs) f declared vars =
      checkJSONPathMatch f .null declared vars := by
  have h1 : evalJSONPath (.obj kvs) f = .ok .null := by
    rw [evalJSONPath_unfold]
    unfold evalStep
    have htrim : goTrimSpace f.data = f.data :=
      goTrimSpace_eq_self (fun c hc => (hch c (mem_of_head? hc)).1)
        (fun c hc => (hch c (mem_of_getLast? hc)).1)
    rw [htrim, if_neg hne]
    rw [parseFilter_not_dollar hne (fun c hc => (hch c (mem_of_head? hc)).2.1)]
    rw [parseIndex_not_dollar hne (fun c hc => (hch c (mem_of_head? hc)).2.1)]
    rw [stripDollar_eq_self (fun hx => by
      cases hd : f.data with
      | nil => rw [hd] at hx; simp at hx
      | cons c t =>
        rw [hd] at hx
        simp only [List.head?_cons, Option.some.injEq] at hx
        exact (hch c (hd ▸ List.mem_cons_self ..)).2.1 hx)]
    rw [splitOnDot_no_dot (fun d hd => (hch d hd).2.2.1)]
    unfold evalDotted
    rw [evalSeg_plain kvs f.data hne (fun d hd => (hch d hd).2.2.2)]
    show evalDotted (mapGet kvs (String.mk f.data)) [] = _
    unfold mapGet
    rw [strMkData f, habs]
    rfl
  refine ⟨h1, rfl, ?_⟩
  unfold runJSONPathMatcher
  rw [h1]

/-- C9 witness: the field `missing` on `(a: 1)` yields `ok nil`. -/
theorem C9_missing_field_not_nav_error_witness :
    evalJSONPath (.obj [("a", .num "1")]) "missing" = .ok .null ∧
    goSprint .null = "<nil>" :=
  have h := C9_missing_field_not_nav_error [("a", .num "1")] "missing"
    (.str "x") [] (by decide) (by decide) rfl
  ⟨h.1, h.2.1⟩

theorem strDataEqNil {s : String} : s.data = [] ↔ s = "" := by
  cases s with
  | mk d =>
    constructor
    · intro h
      show String.mk d = ""
      rw [show d = ([] : List Char) from h]
    · intro h
      rw [h]

theorem takeWhile_dropWhile_append {p : Char → Bool} {i : List Char}
    (rest : List Char) (hi : ∀ c ∈ i, p c = true)
    (hr : ∀ c, rest.head? = some c → p c = false) :
    (i ++ rest).takeWhile p = i ∧ (i ++ rest).dropWhile p = rest := by
  induction i with
  | nil =>
    constructor
    · cases rest with
      | nil => rfl
      | cons c t => simp [List.takeWhile_cons, hr c rfl]
    · cases rest with
      | nil => rfl
      | cons c t => simp [List.dropWhile_cons, hr c rfl]
  | cons c t ih =>
    obtain ⟨ih1, ih2⟩ := ih (fun d hd => hi d (List.mem_cons_of_mem _ hd))
    have hc : p c = true := hi c (List.mem_cons_self ..)
    constructor
    · rw [List.cons_append, List.takeWhile_cons, if_pos hc, ih1]
    · rw [List.cons_append, List.dropWhile_cons, if_pos hc, ih2]

theorem stripLit_split : ∀ (l1 l2 x : List Char),
    stripLit (l1 ++ l2) x = (stripLit l1 x).bind (fun y => stripLit l2 y) := by
  intro l1
  induction l1 with
  | nil => intro l2 x; rfl
  | cons p ps ih =>
    intro l2 x
    cases x with
    | nil => rfl
    | cons c cs =>
      simp only [List.cons_append, stripLit]
      by_cases hc : c = p
      · rw [if_pos hc, if_pos hc]
        exact ih l2 cs
      · rw [if_neg hc, if_neg hc]
        rfl

theorem mkIndexQuery_data (ds rest : String) :
    (mkIndexQuery ds rest).data =
      '$' :: '[' :: (ds.data ++ ']' ::
        (if rest = "" then [] else '.' :: rest.data)) := by
  unfold mkIndexQuery
  by_cases hr : rest = ""
  · rw [if_pos hr, if_pos hr]
    simp [strDataAppend, List.append_assoc]
  · rw [if_neg hr, if_neg hr]
    simp [strDataAppend, List.append_assoc]

theorem parseFilter_index_query (ds sfx : List Char) (hd1 : ds ≠ [])
    (hd2 : ∀ c ∈ ds, c.isDigit = true) :
    parseFilter ('$' :: '[' :: (ds ++ sfx)) = none := by
  cases ds with
  | nil => exact absurd rfl hd1
  | cons d dt =>
    have hdd : d ≠ '?' := by
      have hd := hd2 d (List.mem_cons_self ..)
      intro h
      rw [h] at hd
      exact absurd hd (by decide)
    have h1 : stripLit filterQueryHead ('$' :: '[' :: (d :: dt ++ sfx)) = none := by
      show stripLit (['$', '['] ++ ['?', '(', '@', '.']) _ = none
      rw [stripLit_split, show stripLit ['$', '['] ('$' :: '[' :: (d :: dt ++ sfx)) =
        some (d :: dt ++ sfx) from stripLit_append ['$', '['] _]
      show stripLit ['?', '(', '@', '.'] (d :: (dt ++ sfx)) = none
      exact stripLit_cons_ne hdd
    unfold parseFilter parseFilterHead
    rw [h1]

theorem parseIndex_complete (ds sfx r : List Char) (hd1 : ds ≠ [])
    (hd2 : ∀ c ∈ ds, c.isDigit = true) (hv : validSuffix sfx = some r) :
    parseIndex ('$' :: '[' :: (ds ++ ']' :: sfx)) = some (ds, r) := by
  unfold parseIndex
  rw [show stripLit ['$', '['] ('$' :: '[' :: (ds ++ ']' :: sfx)) =
    some (ds ++ ']' :: sfx) from stripLit_append ['$', '['] _]
  have hsplit : (ds ++ ']' :: sfx).takeWhile Char.isDigit = ds ∧
      (ds ++ ']' :: sfx).dropWhile Char.isDigit = ']' :: sfx :=
    takeWhile_dropWhile_append (']' :: sfx) hd2 (fun c hc => by
      simp only [List.head?_cons, Option.some.injEq] at hc
      rw [← hc]
      decide)
  dsimp only
  rw [hsplit.1, hsplit.2]
  rw [if_pos ⟨hd1, rfl⟩]
  show (match validSuffix sfx with
        | some r2 => some (ds, r2)
        | none => none) = _
  rw [hv]

/-- C6: a `$[N].rest` query requires the root to be an array (any other
root kind is the `expected array for index` error); with `N` the value
of the digit run, an out-of-bounds `N` is exactly the
`index out of range` error; an in-bounds `N` selects the element,
returning it when no trailing path is given and recursing into it
otherwise; `$[0].name` against `[{"name":"X"}]` returns `"X"` and
against `[]` fails with the out-of-range error. -/
theorem C6_index_query (ds rest : String)
    (hd1 : ds.data ≠ []) (hd2 : ∀ c ∈ ds.data, c.isDigit = true)
    (hr1 : rest.data.contains '\n' = false)
    (hr2 : ∀ c, rest.data.getLast? = some c → isGoSpace c = false) :
    (∀ obj : JSON, (∀ xs, obj ≠ .arr xs) →
       evalJSONPath obj (mkIndexQuery ds rest) =
         .error ("expected array for index " ++ mkIndexQuery ds rest)) ∧
    (∀ elems : List JSON, elems.length ≤ natOfDigits ds.data →
       evalJSONPath (.arr elems) (mkIndexQuery ds rest) =
         .error ("index out of range for " ++ mkIndexQuery ds rest)) ∧
    (∀ (elems : List JSON) (el : JSON), elems[natOfDigits ds.data]? = some el →
       rest = "" → evalJSONPath (.arr elems) (mkIndexQuery ds rest) = .ok el) ∧
    (∀ (elems : List JSON) (el : JSON), elems[natOfDigits ds.data]? = some el →
       rest ≠ "" →
       evalJSONPath (.arr elems) (mkIndexQuery ds rest) = evalJSONPath el rest) ∧
    evalJSONPath (.arr [.obj [("name", .str "X")]]) "$[0].name" = .ok (.str "X") ∧
    evalJSONPath (.arr []) "$[0].name" =
      .error "index out of range for $[0].name" := by
  have hqd := mkIndexQuery_data ds rest
  have hne2 : (mkIndexQuery ds rest).data ≠ [] := by rw [hqd]; simp
  have htrim : goTrimSpace (mkIndexQuery ds rest).data = (mkIndexQuery ds rest).data := by
    apply goTrimSpace_eq_self
    · intro c hc
      rw [hqd] at hc
      simp only [List.head?_cons, Option.some.injEq] at hc
      rw [← hc]
      decide
    · intro c hc
      rw [hqd] at hc
      by_cases hrr : rest = ""
      · rw [if_pos hrr] at hc
        have he : ('$' :: '[' :: (ds.data ++ ']' :: ([] : List Char))) =
            ('$' :: '[' :: ds.data) ++ [']'] := by simp
        rw [he, List.getLast?_concat] at hc
        simp only [Option.some.injEq] at hc
        rw [← hc]
        decide
      · rw [if_neg hrr] at hc
        have he : ('$' :: '[' :: (ds.data ++ ']' :: '.' :: rest.data)) =
            ('$' :: '[' :: (ds.data ++ [']', '.'])) ++ rest.data := by simp
        rw [he, List.getLast?_append] at hc
        cases hgl : rest.data.getLast? with
        | none =>
          have hne3 : rest.data ≠ [] := fun hx => hrr (strDataEqNil.mp hx)
          have hsome := List.getLast?_isSome.mpr hne3
          rw [hgl] at hsome
          exact absurd hsome (by simp)
        | some c0 =>
          rw [hgl] at hc
          simp only [Option.or_some, Option.some.injEq] at hc
          rw [← hc]
          exact hr2 c0 hgl
  have hpf2 : parseFilter (mkIndexQuery ds rest).data = none := by
    rw [hqd]
    exact parseFilter_index_query ds.data _ hd1 hd2
  have hvs : validSuffix (if rest = "" then [] else '.' :: rest.data) =
      some rest.data := by
    by_cases hrr : rest = ""
    · rw [if_pos hrr, hrr]
      rfl
    · rw [if_neg hrr]
      show (if '.' = '.' ∧ rest.data.contains '\n' = false
            then some rest.data else none) = some rest.data
      rw [if_pos ⟨rfl, hr1⟩]
  have hpi2 : parseIndex (mkIndexQuery ds rest).data = some (ds.data, rest.data) := by
    rw [hqd]
    exact parseIndex_complete ds.data _ rest.data hd1 hd2 hvs
  refine ⟨?_, ?_, ?_, ?_, rfl, rfl⟩
  · intro obj hobj
    rw [evalJSONPath_unfold]
    unfold evalStep
    rw [htrim, if_neg hne2, hpf2, hpi2]
    cases obj with
    | arr xs => exact absurd rfl (hobj xs)
    | null => rfl
    | bool b => rfl
    | num s => rfl
    | str s => rfl
    | obj kvs => rfl
  · intro elems hlen
    rw [evalJSONPath_unfold]
    unfold evalStep
    rw [htrim, if_neg hne2, hpf2, hpi2]
    dsimp only
    rw [List.getElem?_eq_none_iff.mpr hlen]
  · intro elems el helem hrest
    rw [evalJSONPath_unfold]
    unfold evalStep
    rw [htrim, if_neg hne2, hpf2, hpi2]
    dsimp only
    rw [helem]
    dsimp only
    rw [if_pos (by rw [hrest])]
  · intro elems el helem hrest
    rw [evalJSONPath_unfold]
    unfold evalStep
    rw [htrim, if_neg hne2, hpf2, hpi2]
    dsimp only
    rw [helem]
    dsimp only
    rw [if_neg (fun hx => hrest (strDataEqNil.mp hx))]

/-- C6 witness: `$[0].name` on a one-element array recurses into the
selected element with the trailing path. -/
theorem C6_index_query_witness :
    evalJSONPath (.arr [.obj [("name", .str "X")]]) (mkIndexQuery "0" "name") =
      evalJSONPath (.obj [("name", .str "X")]) "name" :=
  (C6_index_query "0" "name" (by decide) (by decide) (by decide)
    (by decide)).2.2.2.1 [.obj [("name", .str "X")]] (.obj [("name", .str "X")])
    rfl (by decide)

theorem trimTrailQuote_eq_self {b : List Char}
    (hq : ∀ c ∈ b, quoteChar c = false) : trimTrailQuote b = b := by
  unfold trimTrailQuote
  cases hgl : b.getLast? with
  | none => rfl
  | some c =>
    dsimp only
    rw [if_neg (by simp [hq c (mem_of_getLast? hgl)])]

theorem groupOk_complete {b : List Char} (hne : b ≠ [])
    (hq : ∀ c ∈ b, quoteChar c = false) : groupOk b = some b := by
  unfold groupOk
  rw [trimTrailQuote_eq_self hq]
  rw [if_pos ⟨hne, by
    rw [List.all_eq_true]
    intro c2 hc2
    simp [hq c2 hc2]⟩]

theorem splits2_eq_nil {l : List Char} (h : hasRJ l = false) : splits2 l = [] := by
  induction l with
  | nil => rfl
  | cons c t ih =>
    simp only [hasRJ] at h
    by_cases hc : c = ')' ∧ t.head? = some ']'
    · rw [if_pos hc] at h
      exact absurd h (by simp)
    · rw [if_neg hc] at h
      simp only [splits2]
      rw [if_neg hc, ih h]
      rfl

theorem splits2_designated (v suf : List Char) (hv : hasRJ v = false)
    (hsuf : hasRJ (']' :: suf) = false) :
    splits2 (v ++ ')' :: ']' :: suf) = [(v, suf)] := by
  induction v with
  | nil =>
    show (if ')' = ')' ∧ (']' :: suf).head? = some ']'
          then [(([] : List Char), (']' :: suf).tail)] else []) ++
        (splits2 (']' :: suf)).map (fun b => (')' :: b.1, b.2)) = [([], suf)]
    rw [if_pos ⟨rfl, rfl⟩, splits2_eq_nil hsuf]
    rfl
  | cons c t ih =>
    simp only [hasRJ] at hv
    by_cases hc : c = ')' ∧ t.head? = some ']'
    · rw [if_pos hc] at hv
      exact absurd hv (by simp)
    · rw [if_neg hc] at hv
      have hcond : ¬(c = ')' ∧ (t ++ ')' :: ']' :: suf).head? = some ']') := by
        rintro ⟨hc1, hc2⟩
        cases t with
        | nil => simp at hc2
        | cons d t2 =>
          simp only [List.cons_append, List.head?_cons, Option.some.injEq] at hc2
          exact hc ⟨hc1, by simp [hc2]⟩
      show (if c = ')' ∧ (t ++ ')' :: ']' :: suf).head? = some ']'
            then [(([] : List Char), (t ++ ')' :: ']' :: suf).tail)] else []) ++
          (splits2 (t ++ ')' :: ']' :: suf)).map (fun b => (c :: b.1, b.2)) =
          [(c :: t, suf)]
      rw [if_neg hcond, ih hv]
      rfl

theorem pickFilter_complete (v suf r : List Char) (hv1 : v ≠ [])
    (hv2 : ∀ c ∈ v, quoteChar c = false) (hv3 : hasRJ v = false)
    (hsuf : hasRJ (']' :: suf) = false) (hvs : validSuffix suf = some r) :
    pickFilter (v ++ ')' :: ']' :: suf) = some (v, r) := by
  unfold pickFilter
  have hsq : stripLeadQuote (v ++ ')' :: ']' :: suf) = v ++ ')' :: ']' :: suf := by
    cases v with
    | nil => exact absurd rfl hv1
    | cons c t =>
      simp only [List.cons_append, stripLeadQuote]
      rw [if_neg (by simp [hv2 c (List.mem_cons_self ..)])]
  rw [hsq, splits2_designated v suf hv3 hsuf]
  show (List.filterMap _ [(v, suf)]).head? = _
  simp only [List.filterMap]
  rw [groupOk_complete hv1 hv2, hvs]
  rfl

theorem parseFilterHead_complete (field S : List Char) (hf1 : field ≠ [])
    (hf2 : ∀ c ∈ field, wordChar c = true) :
    parseFilterHead (filterQueryHead ++ (field ++ '=' :: '=' :: S)) =
      some (field, S) := by
  unfold parseFilterHead
  rw [stripLit_append]
  have hsp : (field ++ '=' :: '=' :: S).takeWhile wordChar = field ∧
      (field ++ '=' :: '=' :: S).dropWhile wordChar = '=' :: '=' :: S :=
    takeWhile_dropWhile_append ('=' :: '=' :: S) hf2 (fun c hc => by
      simp only [List.head?_cons, Option.some.injEq] at hc
      rw [← hc]
      decide)
  dsimp only
  rw [hsp.1, hsp.2]
  rw [if_pos ⟨hf1, rfl⟩]
  rfl

theorem parseFilter_complete (field v suf r : List Char) (hf1 : field ≠ [])
    (hf2 : ∀ c ∈ field, wordChar c = true) (hv1 : v ≠ [])
    (hv2 : ∀ c ∈ v, quoteChar c = false) (hv3 : hasRJ v = false)
    (hsuf : hasRJ (']' :: suf) = false) (hvs : validSuffix suf = some r) :
    parseFilter (filterQueryHead ++ (field ++ '=' :: '=' :: (v ++ ')' :: ']' :: suf))) =
      some (field, v, r) := by
  unfold parseFilter
  rw [parseFilterHead_complete field _ hf1 hf2]
  dsimp only
  rw [pickFilter_complete v suf r hv1 hv2 hv3 hsuf hvs]

theorem mkFilterQuery_data (field value rest : String) :
    (mkFilterQuery field value rest).data =
      filterQueryHead ++ (field.data ++ '=' :: '=' :: (value.data ++ ')' :: ']' ::
        (if rest = "" then [] else '.' :: rest.data))) := by
  unfold mkFilterQuery filterQueryHead
  by_cases hr : rest = ""
  · rw [if_pos hr, if_pos hr]
    simp [strDataAppend, List.append_assoc]
  · rw [if_neg hr, if_neg hr]
    simp [strDataAppend, List.append_assoc]

theorem evalStep_filter_branch (recurse : JSON → String → Except String JSON)
    (elems : List JSON) (path : String) (field val rest : List Char)
    (hne : ¬goTrimSpace path.data = [])
    (hpf : parseFilter (goTrimSpace path.data) = some (field, val, rest)) :
    evalStep recurse (.arr elems) path =
      (match filterMatches elems (String.mk field) (String.mk val) with
       | [] => .error ("no match for filter " ++ path)
       | first :: _ =>
         if rest = [] then
           .ok (.arr (filterMatches elems (String.mk field) (String.mk val)))
         else recurse first (String.mk rest)) := by
  unfold evalStep
  rw [if_neg hne, hpf]
  rfl

/-- C1: a `$[?(@.field==value)].rest` query requires the root to be an
array (any other root kind is the `expected array for filter` error);
it selects all elements that are objects whose `field` member
stringifies to exactly `value` (`filterMatches`); zero matches is the
`no match for filter` error; with no trailing path the full match list
is returned; with a trailing path it is evaluated against the first
match only and that result is returned; `$[?(@.id==2)].title` against
`[{"id":1,"title":"A"},{"id":2,"title":"B"}]` returns `"B"`. -/
theorem C1_filter_query (field value rest : String)
    (hf1 : field.data ≠ []) (hf2 : ∀ c ∈ field.data, wordChar c = true)
    (hv1 : value.data ≠ []) (hv2 : ∀ c ∈ value.data, quoteChar c = false)
    (hv3 : hasRJ value.data = false)
    (hr1 : hasRJ rest.data = false)
    (hr2 : rest.data.contains '\n' = false)
    (hr3 : ∀ c, rest.data.getLast? = some c → isGoSpace c = false) :
    (∀ obj : JSON, (∀ xs, obj ≠ .arr xs) →
       evalJSONPath obj (mkFilterQuery field value rest) =
         .error ("expected array for filter " ++ mkFilterQuery field value rest)) ∧
    (∀ elems : List JSON, filterMatches elems field value = [] →
       evalJSONPath (.arr elems) (mkFilterQuery field value rest) =
         .error ("no match for filter " ++ mkFilterQuery field value rest)) ∧
    (∀ (elems : List JSON) (first : JSON) (ms : List JSON),
       filterMatches elems field value = first :: ms → rest = "" →
       evalJSONPath (.arr elems) (mkFilterQuery field value rest) =
         .ok (.arr (first :: ms))) ∧
    (∀ (elems : List JSON) (first : JSON) (ms : List JSON),
       filterMatches elems field value = first :: ms → rest ≠ "" →
       evalJSONPath (.arr elems) (mkFilterQuery field value rest) =
         evalJSONPath first rest) ∧
    evalJSONPath (.arr [.obj [("id", .num "1"), ("title", .str "A")],
                        .obj [("id", .num "2"), ("title", .str "B")]])
      "$[?(@.id==2)].title" = .ok (.str "B") := by
  have hqd := mkFilterQuery_data field value rest
  have hne2 : (mkFilterQuery field value rest).data ≠ [] := by
    rw [hqd]
    simp [filterQueryHead]
  have hsuf : hasRJ (']' :: (if rest = "" then [] else '.' :: rest.data)) = false := by
    by_cases hrr : rest = ""
    · rw [if_pos hrr]
      decide
    · rw [if_neg hrr]
      show hasRJ (']' :: '.' :: rest.data) = false
      simp only [hasRJ]
      rw [if_neg (by simp), if_neg (by simp)]
      exact hr1
  have hvs : validSuffix (if rest = "" then [] else '.' :: rest.data) =
      some rest.data := by
    by_cases hrr : rest = ""
    · rw [if_pos hrr, hrr]
      rfl
    · rw [if_neg hrr]
      show (if '.' = '.' ∧ rest.data.contains '\n' = false
            then some rest.data else none) = some rest.data
      rw [if_pos ⟨rfl, hr2⟩]
  have htrim : goTrimSpace (mkFilterQuery field value rest).data =
      (mkFilterQuery field value rest).data := by
    apply goTrimSpace_eq_self
    · intro c hc
      rw [hqd] at hc
      simp only [filterQueryHead, List.cons_append, List.head?_cons,
        Option.some.injEq] at hc
      rw [← hc]
      decide
    · intro c hc
      rw [hqd] at hc
      by_cases hrr : rest = ""
      · rw [if_pos hrr] at hc
        have he : (filterQueryHead ++ (field.data ++ '=' :: '=' ::
            (value.data ++ ')' :: ']' :: ([] : List Char)))) =
            (filterQueryHead ++ (field.data ++ '=' :: '=' ::
              (value.data ++ [')']))) ++ [']'] := by
          simp
        rw [he, List.getLast?_concat] at hc
        simp only [Option.some.injEq] at hc
        rw [← hc]
        decide
      · rw [if_neg hrr] at hc
        have he : (filterQueryHead ++ (field.data ++ '=' :: '=' ::
            (value.data ++ ')' :: ']' :: '.' :: rest.data))) =
            (filterQueryHead ++ (field.data ++ '=' :: '=' ::
              (value.data ++ [')', ']', '.']))) ++ rest.data := by
          simp
        rw [he, List.getLast?_append] at hc
        cases hgl : rest.data.getLast? with
        | none =>
          have hne3 : rest.data ≠ [] := fun hx => hrr (strDataEqNil.mp hx)
          have hsome := List.getLast?_isSome.mpr hne3
          rw [hgl] at hsome
          exact absurd hsome (by simp)
        | some c0 =>
          rw [hgl] at hc
          simp only [Option.or_some, Option.some.injEq] at hc
          rw [← hc]
          exact hr3 c0 hgl
  have hpf2 : parseFilter (goTrimSpace (mkFilterQuery field value rest).data) =
      some (field.data, value.data, rest.data) := by
    rw [htrim, hqd]
    exact parseFilter_complete field.data value.data _ rest.data hf1 hf2 hv1 hv2
      hv3 hsuf hvs
  have hne4 : ¬goTrimSpace (mkFilterQuery field value rest).data = [] := by
    rw [htrim]
    exact hne2
  refine ⟨?_, ?_, ?_, ?_, rfl⟩
  · intro obj hobj
    rw [evalJSONPath_unfold]
    unfold evalStep
    rw [if_neg hne4, hpf2]
    cases obj with
    | arr xs => exact absurd rfl (hobj xs)
    | null => rfl
    | bool b => rfl
    | num s => rfl
    | str s => rfl
    | obj kvs => rfl
  · intro elems hms
    rw [evalJSONPath_unfold]
    rw [evalStep_filter_branch _ elems _ field.data value.data rest.data hne4 hpf2]
    rw [strMkData field, strMkData value, hms]
  · intro elems first ms hms hrest
    rw [evalJSONPath_unfold]
    rw [evalStep_filter_branch _ elems _ field.data value.data rest.data hne4 hpf2]
    rw [strMkData field, strMkData value, hms]
    dsimp only
    rw [if_pos (by rw [hrest])]
  · intro elems first ms hms hrest
    rw [evalJSONPath_unfold]
    rw [evalStep_filter_branch _ elems _ field.data value.data rest.data hne4 hpf2]
    rw [strMkData field, strMkData value, hms]
    dsimp only
    rw [if_neg (fun hx => hrest (strDataEqNil.mp hx))]

/-- C1 witness: `$[?(@.id==2)].title` on the two-element example array
evaluates the trailing path against the first (only) match. -/
theorem C1_filter_query_witness :
    evalJSONPath (.arr [.obj [("id", .num "1"), ("title", .str "A")],
                        .obj [("id", .num "2"), ("title", .str "B")]])
        (mkFilterQuery "id" "2" "title") =
      evalJSONPath (.obj [("id", .num "2"), ("title", .str "B")]) "title" :=
  (C1_filter_query "id" "2" "title" (by decide) (by decide) (by decide)
      (by decide) (by decide) (by decide) (by decide) (by decide)).2.2.2.1
    [.obj [("id", .num "1"), ("title", .str "A")],
     .obj [("id", .num "2"), ("title", .str "B")]]
    (.obj [("id", .num "2"), ("title", .str "B")]) [] rfl (by decide)
